import Mathlib

/-!
# Verification of the FuncDep candidate-key enumeration core

Shallow embedding of the bitset-based attribute-set algebra (`set.h` /
`set.c`), the attribute-closure fixpoint (`compute_closure`), the early-exit
superkey test (`is_superkey`), the minimal-key reduction
(`candidate_key_from_super_key`) and the Lucchesi–Osborn enumeration loop
(`print_all_candidate_keys`) of the FuncDep repository, together with proofs
of the specified properties.

Machine integers are modelled as `Nat` with explicit reductions modulo
`2 ^ 8` where `uint8_t` arithmetic can overflow.  The FIFO queue
(`queue.c`: `Q_insert` links a node at the head end, `Q_pop` takes the tail,
`Q_iterator` walks from the tail towards the head) is modelled as a Lean
`List` in insertion order: pop = `head`, insert = append on the right,
iteration = left-to-right.
-/

namespace FuncDep

/-- `MAX_ATTRIBS` from `set.h`. -/
def MAX_ATTRIBS : Nat := 26

/-- `INVALID_ATTRIB` from `set.h` (equals `MAX_ATTRIBS`). -/
def INVALID_ATTRIB : Nat := MAX_ATTRIBS

/-- `USED_MASK 0x03FFFFFF` from `set.h`: mask of the bits actually used. -/
def USED_MASK : Nat := 0x03FFFFFF

/-- Number of set bits among the 32 bits of a `uint32_t` value
(`__builtin_popcount` / `_mm_popcnt_u32`). -/
def popcount32 (m : Nat) : Nat :=
  ((Finset.range 32).filter (fun i => m.testBit i = true)).card

/-- The bitmask of the full universe of `n` attributes:
`(1 << n) - 1`, as built by `Set_full`. -/
def uMask (n : Nat) : Nat := 2 ^ n - 1

/-- The `Set` struct of `set.h`: a 26-attribute bitset with a cached
cardinality and a resettable enumeration cursor.  All four `uint` fields are
modelled as `Nat`. -/
structure Set where
  set    : Nat
  size   : Nat
  cursor : Nat
  count  : Nat
  deriving DecidableEq, Repr

/-- `Set_union` (set.h): bitwise or, size recomputed by popcount, cursor
state reset. -/
def Set_union (s t : Set) : Set :=
  let u := s.set ||| t.set
  { set := u, size := popcount32 u, cursor := 0, count := 0 }

/-- `Set_intersection` (set.h). -/
def Set_intersection (s t : Set) : Set :=
  let i := s.set &&& t.set
  { set := i, size := popcount32 i, cursor := 0, count := 0 }

/-- `Set_difference` (src/set.c lines 30–36, the final revision):
`d = s->set & (~t->set)` with **no** `USED_MASK` applied.  The `uint32_t`
complement `~t->set` is `0xFFFFFFFF ^ t->set`, i.e.
`uMask 32 ^^^ (t.set &&& uMask 32)` on the `Nat` model.  (The superseded
header-only revision in part_003 additionally ANDed with `USED_MASK`; the
final build does not.) -/
def Set_difference (s t : Set) : Set :=
  let d := s.set &&& (uMask 32 ^^^ (t.set &&& uMask 32))
  { set := d, size := popcount32 d, cursor := 0, count := 0 }

/-- `Set_contains` (set.h): `(s->set & t->set) == t->set`, i.e. `t ⊆ s`. -/
def Set_contains (s t : Set) : Bool :=
  (s.set &&& t.set) == t.set

/-- `Set_init` / `Set_clear` (set.h): the zeroed struct. -/
def Set_init : Set := { set := 0, size := 0, cursor := 0, count := 0 }

/-- `Set_clear` (set.h): identical effect to `Set_init`. -/
def Set_clear (_ : Set) : Set := Set_init

/-- `Set_copy` (set.h): copies bits and size, resets the cursor state. -/
def Set_copy (other : Set) : Set :=
  { set := other.set, size := other.size, cursor := 0, count := 0 }

/-- `Set_full` (set.h): first `n_attribs` bits set (the assert
`n_attribs <= MAX_ATTRIBS` becomes a hypothesis of the theorems). -/
def Set_full (n_attribs : Nat) : Set :=
  { set := uMask n_attribs, size := n_attribs, cursor := 0, count := 0 }

/-- `Set_is_full` (set.h): compares only the cached size against
`n_attribs`. -/
def Set_is_full (s : Set) (n_attribs : Nat) : Bool :=
  s.size == n_attribs

/-- `Set_insert` (set.h), raw mutation semantics (the asserts
`i < MAX_ATTRIBS` of `set.h` become hypotheses): no-op if the attribute is
present, otherwise set the bit and increment the `uint8_t` size. -/
def Set_insert (s : Set) (i : Nat) : Set :=
  if s.set.testBit i then s
  else { s with set := s.set ||| (1 <<< i), size := (s.size + 1) % 2 ^ 8 }

/-- `Set_remove` (set.h), raw mutation semantics (the assert that `i` is
valid and present becomes a hypothesis): clear the bit with xor and
decrement the `uint8_t` size (`0 - 1` wraps to `255`). -/
def Set_remove (s : Set) (i : Nat) : Set :=
  { s with set := s.set ^^^ (1 <<< i), size := (s.size + 255) % 2 ^ 8 }

/-- `Set_insert` as in `src/set.c`, with its asserts modelled as guards:
`assert(i < MAX_ATTRIBS)` and `assert(s->cursor == 0)` (mutation during an
enumeration is rejected); `none` models the assertion failure. -/
def Set_insert_checked (s : Set) (i : Nat) : Option Set :=
  if i < MAX_ATTRIBS then
    if s.cursor = 0 then some (Set_insert s i)
    else none
  else none

/-- `Set_remove` as in `src/set.c`, with its asserts modelled as guards:
`assert(i < MAX_ATTRIBS)`, `assert(s->set & (1u << i))` (the attribute must
be present) and `assert(s->cursor == 0)`. -/
def Set_remove_checked (s : Set) (i : Nat) : Option Set :=
  if i < MAX_ATTRIBS then
    if s.set.testBit i then
      if s.cursor = 0 then some (Set_remove s i)
      else none
    else none
  else none

/-- The loop of the scan of `Set_next_pos`, with the remaining number of
loop iterations (`MAX_ATTRIBS - i`) made explicit as structural fuel:
try positions `i, i+1, …` for `fuel` steps. -/
def scanPosAux (mask : Nat) : Nat → Nat → Nat
  | 0, _ => INVALID_ATTRIB
  | fuel + 1, i => if mask.testBit i then i else scanPosAux mask fuel (i + 1)

/-- The scan of `Set_next_pos` (set.c): the first position `≥ i` and
`< MAX_ATTRIBS` whose bit is set, or `MAX_ATTRIBS` (`INVALID_ATTRIB`) when
there is none — the `for (i = s->cursor; i < MAX_ATTRIBS; ++i)` search. -/
def scanPos (mask : Nat) (i : Nat) : Nat :=
  scanPosAux mask (MAX_ATTRIBS - i) i

/-- `Set_next_pos` (src/set.c lines 112–132): returns the next member at or
after the cursor and the updated struct.  On a hit the cursor advances past
the hit; when the incremented `uint8_t` count reaches the size, cursor and
count silently reset to `0`.  When no bit at or after the cursor is set the
sentinel `INVALID_ATTRIB` is returned and the struct is left unchanged. -/
def Set_next_pos (s : Set) : Set × Nat :=
  let i := scanPos s.set s.cursor
  if i < MAX_ATTRIBS then
    let count' := (s.count + 1) % 2 ^ 8
    if count' = s.size then
      ({ s with cursor := 0, count := 0 }, i)
    else
      ({ s with cursor := i + 1, count := count' }, i)
  else (s, INVALID_ATTRIB)

/-- Trace of `k` successive `Set_next_pos` calls: the list of returned
positions and the final struct. -/
def Set_enumList (s : Set) : Nat → List Nat × Set
  | 0 => ([], s)
  | k + 1 =>
    let p := Set_next_pos s
    let q := Set_enumList p.1 k
    (p.2 :: q.1, q.2)

/-- Worker for `mFrom`, with the remaining number of positions to inspect
as structural fuel. -/
def mFromAux (mask : Nat) : Nat → Nat → List Nat
  | 0, _ => []
  | fuel + 1, c =>
    if mask.testBit c then c :: mFromAux mask fuel (c + 1)
    else mFromAux mask fuel (c + 1)

/-- The ascending list of member positions of `mask` at or after `c` and
below `MAX_ATTRIBS` — the sequence of positions an enumeration with
`Set_next_pos` started at cursor `c` walks through. -/
def mFrom (mask : Nat) (c : Nat) : List Nat :=
  mFromAux mask (MAX_ATTRIBS - c) c

/-! ## Bitmask subset order and popcount lemmas -/

/-- Bitmask subset, in the executable form used by `Set_contains`:
`a ⊆ b` as `a & b == a`. -/
@[reducible] def msub (a b : Nat) : Prop := a &&& b = a

theorem msub_iff {a b : Nat} :
    msub a b ↔ ∀ i, a.testBit i = true → b.testBit i = true := by
  constructor
  · intro h i hi
    rw [msub] at h
    rw [← h, Nat.testBit_land] at hi
    exact (Bool.and_eq_true _ _).mp hi |>.2
  · intro h
    apply Nat.eq_of_testBit_eq
    intro i
    rw [Nat.testBit_land]
    cases hb : a.testBit i with
    | false => simp
    | true => simp [h i hb]

theorem msub_refl (a : Nat) : msub a a :=
  msub_iff.mpr (fun _ h => h)

theorem msub_trans {a b c : Nat} (h1 : msub a b) (h2 : msub b c) : msub a c :=
  msub_iff.mpr (fun i hi => msub_iff.mp h2 i (msub_iff.mp h1 i hi))

theorem msub_antisymm {a b : Nat} (h1 : msub a b) (h2 : msub b a) : a = b := by
  apply Nat.eq_of_testBit_eq
  intro i
  cases hb : a.testBit i with
  | false =>
    cases hc : b.testBit i with
    | false => rfl
    | true => exact absurd (msub_iff.mp h2 i hc) (by simp [hb])
  | true => rw [msub_iff.mp h1 i hb]

theorem msub_lor_left (a b : Nat) : msub a (a ||| b) :=
  msub_iff.mpr (fun i hi => by rw [Nat.testBit_lor, hi, Bool.true_or])

theorem msub_lor_right (a b : Nat) : msub b (a ||| b) :=
  msub_iff.mpr (fun i hi => by rw [Nat.testBit_lor, hi, Bool.or_true])

theorem lor_msub {a b c : Nat} (h1 : msub a c) (h2 : msub b c) :
    msub (a ||| b) c := by
  refine msub_iff.mpr (fun i hi => ?_)
  rw [Nat.testBit_lor] at hi
  rcases (Bool.or_eq_true _ _).mp hi with h | h
  · exact msub_iff.mp h1 i h
  · exact msub_iff.mp h2 i h

theorem msub_land_left (a b : Nat) : msub (a &&& b) a :=
  msub_iff.mpr (fun i hi => by
    rw [Nat.testBit_land] at hi
    exact ((Bool.and_eq_true _ _).mp hi).1)

/-- Membership in the full-universe mask is exactly boundedness of the bit
position. -/
theorem testBit_uMask {n i : Nat} : (uMask n).testBit i = decide (i < n) := by
  rw [uMask, Nat.testBit_two_pow_sub_one]

theorem msub_uMask_iff {a n : Nat} :
    msub a (uMask n) ↔ ∀ i, a.testBit i = true → i < n := by
  rw [msub_iff]
  constructor
  · intro h i hi
    have := h i hi
    rw [testBit_uMask] at this
    exact of_decide_eq_true this
  · intro h i hi
    rw [testBit_uMask]
    exact decide_eq_true (h i hi)

theorem msub_uMask_of_lt {a n : Nat} (h : a < 2 ^ n) : msub a (uMask n) := by
  refine msub_uMask_iff.mpr (fun i hi => ?_)
  by_contra hc
  rw [Nat.testBit_lt_two_pow (lt_of_lt_of_le h (Nat.pow_le_pow_right (by omega) (by omega)))] at hi
  exact Bool.false_ne_true hi

theorem lt_of_msub_uMask {a n : Nat} (h : msub a (uMask n)) : a < 2 ^ n := by
  rw [msub] at h
  calc a = a &&& uMask n := h.symm
    _ ≤ uMask n := Nat.and_le_right
    _ < 2 ^ n := by rw [uMask]; exact Nat.sub_lt (Nat.pos_pow_of_pos n (by omega)) (by omega)

theorem uMask_msub_uMask {m n : Nat} (h : m ≤ n) : msub (uMask m) (uMask n) :=
  msub_uMask_iff.mpr (fun i hi => by
    rw [testBit_uMask] at hi
    exact lt_of_lt_of_le (of_decide_eq_true hi) h)

/-- The finset of set bit positions among the 32 bits. -/
theorem popcount32_eq_card (m : Nat) :
    popcount32 m = ((Finset.range 32).filter (fun i => m.testBit i = true)).card := rfl

theorem popcount32_le (m : Nat) : popcount32 m ≤ 32 := by
  rw [popcount32_eq_card]
  calc ((Finset.range 32).filter (fun i => m.testBit i = true)).card
      ≤ (Finset.range 32).card := Finset.card_filter_le _ _
    _ = 32 := Finset.card_range 32

theorem popcount32_mono {a b : Nat} (h : msub a b) :
    popcount32 a ≤ popcount32 b := by
  rw [popcount32_eq_card, popcount32_eq_card]
  apply Finset.card_le_card
  intro i hi
  rw [Finset.mem_filter] at hi ⊢
  exact ⟨hi.1, msub_iff.mp h i hi.2⟩

theorem popcount32_strict_mono {a b : Nat} (hs : msub a b) (hne : a ≠ b)
    (hb : b < 2 ^ 32) : popcount32 a < popcount32 b := by
  rw [popcount32_eq_card, popcount32_eq_card]
  apply Finset.card_lt_card
  rw [Finset.ssubset_iff_of_subset]
  · have hdiff : ∃ i, a.testBit i ≠ b.testBit i := by
      by_contra hc
      push_neg at hc
      exact hne (Nat.eq_of_testBit_eq hc)
    obtain ⟨i, hi⟩ := hdiff
    have hbi : b.testBit i = true := by
      cases habit : a.testBit i with
      | true => exact msub_iff.mp hs i habit
      | false =>
        cases hbit : b.testBit i with
        | true => rfl
        | false => rw [habit, hbit] at hi; exact absurd rfl hi
    have hai : a.testBit i = false := by
      cases habit : a.testBit i with
      | false => rfl
      | true => exact absurd (by rw [habit, hbi]) hi
    refine ⟨i, ?_, ?_⟩
    · rw [Finset.mem_filter, Finset.mem_range]
      refine ⟨?_, hbi⟩
      by_contra hc
      rw [Nat.testBit_lt_two_pow (lt_of_lt_of_le hb (Nat.pow_le_pow_right (by omega) (by omega)))] at hbi
      exact Bool.false_ne_true hbi
    · rw [Finset.mem_filter]
      intro hc
      rw [hai] at hc
      exact Bool.false_ne_true hc.2
  · intro i hi
    rw [Finset.mem_filter] at hi ⊢
    exact ⟨hi.1, msub_iff.mp hs i hi.2⟩

theorem popcount32_uMask {n : Nat} (h : n ≤ 32) : popcount32 (uMask n) = n := by
  rw [popcount32_eq_card]
  have : (Finset.range 32).filter (fun i => (uMask n).testBit i = true) =
      Finset.range n := by
    ext i
    rw [Finset.mem_filter, Finset.mem_range, Finset.mem_range, testBit_uMask]
    constructor
    · intro ⟨_, hd⟩; exact of_decide_eq_true hd
    · intro hi; exact ⟨lt_of_lt_of_le hi h, decide_eq_true hi⟩
  rw [this, Finset.card_range]

theorem popcount32_le_of_msub_uMask {m n : Nat} (h : msub m (uMask n))
    (hn : n ≤ 32) : popcount32 m ≤ n := by
  calc popcount32 m ≤ popcount32 (uMask n) := popcount32_mono h
    _ = n := popcount32_uMask hn

/-- A subset of the universe whose popcount is the whole universe size is
the universe. -/
theorem eq_uMask_of_popcount {m n : Nat} (hs : msub m (uMask n)) (hn : n ≤ 32)
    (hc : popcount32 m = n) : m = uMask n := by
  by_contra hne
  have hlt := popcount32_strict_mono hs hne
    (lt_of_lt_of_le (lt_of_msub_uMask (msub_refl (uMask n)))
      (Nat.pow_le_pow_right (by omega) hn))
  rw [hc, popcount32_uMask hn] at hlt
  exact lt_irrefl n hlt

/-! ## Dependencies, closure and superkey test -/

/-- The `q_key_t` of the final revision's queue: one functional dependency
`lhs -> rhs`. -/
structure q_key where
  lhs : Set
  rhs : Set
  deriving DecidableEq, Repr

/-- One pass of the fixpoint loop shared by `compute_closure` and
`is_superkey` (part_001 lines 510–529 and 548–566): walk the dependency
queue in FIFO order; whenever `lhs ⊆ closure` and `rhs ⊄ closure`, union
`rhs` into the closure and record that something was added; break out the
moment the closure reports full.  Returns
`(closure, is_new_attrib, full_exit)`. -/
def closurePass (n_attribs : Nat) : Set → Bool → List q_key → Set × Bool × Bool
  | c, flag, [] => (c, flag, false)
  | c, flag, d :: rest =>
    if Set_contains c d.lhs && !Set_contains c d.rhs then
      let c' := Set_union c d.rhs
      if Set_is_full c' n_attribs then (c', true, true)
      else closurePass n_attribs c' true rest
    else closurePass n_attribs c flag rest

/-- The outer `while (is_new_attrib)` loop of `compute_closure`
(part_001 lines 505–530).  Each pass that does not stop strictly enlarges
the closure bitmask, which has at most 32 bits, so at most 33 passes can
ever run: the fuel `33` supplied by `compute_closure` is never exhausted
(see `closLoop_fuel`). -/
def closLoop (q : List q_key) (n_attribs : Nat) : Nat → Set → Set
  | 0, c => c
  | fuel + 1, c =>
    match closurePass n_attribs c false q with
    | (c', _, true) => c'
    | (c', true, false) => closLoop q n_attribs fuel c'
    | (c', false, false) => c'

/-- `compute_closure` (part_001 lines 500–534): copy the seed, then run
fixpoint passes until a pass adds nothing or the closure becomes full. -/
def compute_closure (s : Set) (q : List q_key) (n_attribs : Nat) : Set :=
  closLoop q n_attribs 33 (Set_copy s)

/-- The outer loop of `is_superkey` (part_001 lines 543–567): identical
passes, but the function returns `true` from inside the loop the moment a
union makes the closure full, and `false` when a pass adds nothing. -/
def skLoop (q : List q_key) (n_attribs : Nat) : Nat → Set → Bool
  | 0, _ => false
  | fuel + 1, c =>
    match closurePass n_attribs c false q with
    | (_, _, true) => true
    | (c', true, false) => skLoop q n_attribs fuel c'
    | (_, false, false) => false

/-- `is_superkey` (part_001 lines 538–570). -/
def is_superkey (s : Set) (q : List q_key) (n_attribs : Nat) : Bool :=
  skLoop q n_attribs 33 (Set_copy s)

/-! ## Minimal-key reduction and the Lucchesi–Osborn enumeration -/

/-- The `for` loop of `candidate_key_from_super_key` (part_001 lines
582–594), running `i` more iterations: fetch the next attribute of `skey`
through the enumeration cursor, tentatively remove it from a copy of
`ckey`, and keep the removal when the remainder is still a superkey. -/
def ckLoop (q : List q_key) (n_attribs : Nat) : Nat → Set → Set → Set
  | 0, _, ckey => ckey
  | i + 1, skey, ckey =>
    let (skey', attrib) := Set_next_pos skey
    let temp := Set_remove (Set_copy ckey) attrib
    if is_superkey temp q n_attribs then ckLoop q n_attribs i skey' (Set_copy temp)
    else ckLoop q n_attribs i skey' ckey

/-- `candidate_key_from_super_key` (part_001 lines 575–596): greedy removal
pass over the `skey->size` attributes of the super-key. -/
def candidate_key_from_super_key (skey : Set) (q : List q_key)
    (n_attribs : Nat) : Set :=
  ckLoop q n_attribs skey.size skey (Set_copy skey)

/-- One step of the inner FD loop of `print_all_candidate_keys`
(part_001 lines 627–664), acting on the state `(ckeys, work)`: for the
dependency `d`, compute `S = lhs ∪ (key \ rhs)`; if some already found
candidate key is contained in `S` skip it, otherwise reduce `S` to a new
candidate key and append it to both queues. -/
def processDep (q : List q_key) (n_attribs : Nat) (key : Set)
    (st : List Set × List Set) (d : q_key) : List Set × List Set :=
  let diff := Set_difference key d.rhs
  let S := Set_union d.lhs diff
  if st.1.any (fun J => Set_contains S J) then st
  else
    let ckey := candidate_key_from_super_key S q n_attribs
    (st.1 ++ [ckey], st.2 ++ [ckey])

/-- One iteration of the `while (work.size != 0)` loop of
`print_all_candidate_keys` (part_001 lines 621–665): pop the oldest key
from the work queue and run the FD loop for it.  On an empty work queue
the state is left unchanged (the loop has finished). -/
def stepLO (q : List q_key) (n_attribs : Nat) :
    List Set × List Set → List Set × List Set
  | (ckeys, []) => (ckeys, [])
  | (ckeys, key :: work) => List.foldl (processDep q n_attribs key) (ckeys, work) q

/-- The initial state of the enumeration loop (part_001 lines 607–619):
the first candidate key — the reduction of the full attribute universe —
sits alone in both the `ckeys` and the `work` queue. -/
def initLO (q : List q_key) (n_attribs : Nat) : List Set × List Set :=
  let attribs := Set_full n_attribs
  let ckey := candidate_key_from_super_key attribs q n_attribs
  ([ckey], [ckey])

/-- `print_all_candidate_keys` (part_001 lines 601–671), as the list of
candidate keys it prints — equally, the final contents of its `ckeys`
queue in insertion order.  The work queue provably drains after at most
`2 ^ n_attribs` iterations (claim C6), after which `stepLO` is the
identity, so iterating `stepLO` that many times reaches the loop's final
state. -/
def print_all_candidate_keys (q : List q_key) (n_attribs : Nat) : List Set :=
  ((stepLO q n_attribs)^[2 ^ n_attribs] (initLO q n_attribs)).1

/-- Abbreviation for a parsed attribute set value: bits of `mask`, cached
size, reset cursor. -/
def mkSet (mask : Nat) : Set :=
  { set := mask, size := popcount32 mask, cursor := 0, count := 0 }

/-- Well-formed, cursor-reset attribute-set value: the cached size equals
the popcount of the mask and no enumeration is in progress.  Every value
the algorithms construct (algebra results, `Set_copy`, `Set_full` with
`n ≤ 32`) has this shape. -/
@[reducible] def wfReset (s : Set) : Prop :=
  s.size = popcount32 s.set ∧ s.cursor = 0 ∧ s.count = 0

/-- The size/popcount invariant of claim C10. -/
@[reducible] def SizeInv (s : Set) : Prop := s.size = popcount32 s.set

/-- All dependency sides are well-formed values over the `n`-attribute
universe — the parse-time invariant established by `parse_attrib_list`. -/
@[reducible] def depsWF (q : List q_key) (n : Nat) : Prop :=
  ∀ d ∈ q, wfReset d.lhs ∧ wfReset d.rhs ∧
    msub d.lhs.set (uMask n) ∧ msub d.rhs.set (uMask n)

/-- Both sides of every dependency are non-empty (also established at
parse time). -/
@[reducible] def depsNonempty (q : List q_key) : Prop :=
  ∀ d ∈ q, d.lhs.set ≠ 0 ∧ d.rhs.set ≠ 0

/-- A mask is closed under the dependencies: whenever a left-hand side is
contained, so is the corresponding right-hand side. -/
@[reducible] def closedM (q : List q_key) (m : Nat) : Prop :=
  ∀ d ∈ q, msub d.lhs.set m → msub d.rhs.set m

/-- The superkey notion of the claims: the closure of the mask under the
dependencies is the full universe, stated with the program's own
`compute_closure`. -/
@[reducible] def superkeyM (q : List q_key) (n : Nat) (m : Nat) : Prop :=
  (compute_closure (mkSet m) q n).set = uMask n

/-- The closure of a mask, at the mask level. -/
def closM (q : List q_key) (n m : Nat) : Nat :=
  (compute_closure (mkSet m) q n).set

/-- What it means for a `Set` value to be a well-formed candidate key over
the `n`-attribute universe: well-formed and in range, a superkey, and
minimal under single-attribute removal. -/
@[reducible] def ckBundle (q : List q_key) (n : Nat) (K : Set) : Prop :=
  wfReset K ∧ msub K.set (uMask n) ∧ superkeyM q n K.set ∧
    ∀ a, K.set.testBit a = true → ¬ superkeyM q n (K.set ^^^ 1 <<< a)

/-- The loop invariant of `print_all_candidate_keys` on its
`(ckeys, work)` state: every found key is a candidate key, the found keys
are pairwise distinct bitmasks, the work queue is a duplicate-free
sub-collection of the found keys, and every fully processed found key has
already been tested against every dependency. -/
def LOInv (q : List q_key) (n : Nat) (st : List Set × List Set) : Prop :=
  (∀ K ∈ st.1, ckBundle q n K) ∧
  (st.1.map Set.set).Nodup ∧
  (st.2.map Set.set).Nodup ∧
  (∀ K ∈ st.2, K ∈ st.1) ∧
  (∀ K ∈ st.1, K ∉ st.2 → ∀ d ∈ q, ∃ J ∈ st.1,
    msub J.set (Set_union d.lhs (Set_difference K d.rhs)).set)

/-- One iteration of the body of `candidate_key_from_super_key`, as a fold
step over the enumerated attribute: copy the working key, remove the
attribute, keep the removal when the remainder passes `is_superkey`. -/
def minimizeStep (q : List q_key) (n : Nat) (ckey : Set) (attrib : Nat) : Set :=
  let temp := Set_remove (Set_copy ckey) attrib
  if is_superkey temp q n then Set_copy temp else ckey

/-! ## Lemmas about the scan of `Set_next_pos` -/

/-- Complete case analysis of the scan worker: either it misses and every
inspected bit is clear, or it hits the least set bit in the inspected
window. -/
theorem scanPosAux_spec (mask : Nat) : ∀ fuel i,
    (scanPosAux mask fuel i = INVALID_ATTRIB ∧
      ∀ j, i ≤ j → j < i + fuel → mask.testBit j = false) ∨
    (i ≤ scanPosAux mask fuel i ∧ scanPosAux mask fuel i < i + fuel ∧
      mask.testBit (scanPosAux mask fuel i) = true ∧
      ∀ j, i ≤ j → j < scanPosAux mask fuel i → mask.testBit j = false) := by
  intro fuel
  induction fuel with
  | zero =>
    intro i
    exact Or.inl ⟨rfl, fun j h1 h2 => absurd h2 (by omega)⟩
  | succ fuel ih =>
    intro i
    rw [scanPosAux]
    by_cases hb : mask.testBit i
    · rw [if_pos hb]
      exact Or.inr ⟨Nat.le_refl i, by omega, hb,
        fun j h1 h2 => absurd h2 (by omega)⟩
    · rw [if_neg hb]
      have hstep : ∀ j, i ≤ j → j < i + 1 → mask.testBit j = false := by
        intro j h1 h2
        have : j = i := by omega
        subst this
        exact Bool.eq_false_iff.mpr hb
      rcases ih (i + 1) with ⟨h1, h2⟩ | ⟨h1, h2, h3, h4⟩
      · refine Or.inl ⟨h1, fun j hj1 hj2 => ?_⟩
        by_cases hji : j = i
        · subst hji; exact Bool.eq_false_iff.mpr hb
        · exact h2 j (by omega) (by omega)
      · refine Or.inr ⟨by omega, by omega, h3, fun j hj1 hj2 => ?_⟩
        by_cases hji : j = i
        · subst hji; exact Bool.eq_false_iff.mpr hb
        · exact h4 j (by omega) hj2

/-- The scan result never exceeds `MAX_ATTRIBS`. -/
theorem scanPos_le (mask c : Nat) : scanPos mask c ≤ MAX_ATTRIBS := by
  rw [scanPos]
  rcases scanPosAux_spec mask (MAX_ATTRIBS - c) c with ⟨h, -⟩ | ⟨h1, h2, -, -⟩
  · rw [h]; exact Nat.le_refl MAX_ATTRIBS
  · omega

/-- A scan that hits returns a position at or after the start cursor. -/
theorem le_scanPos_of_lt (mask c : Nat) (h : scanPos mask c < MAX_ATTRIBS) :
    c ≤ scanPos mask c := by
  rw [scanPos] at h ⊢
  rcases scanPosAux_spec mask (MAX_ATTRIBS - c) c with ⟨he, -⟩ | ⟨h1, -, -, -⟩
  · rw [he] at h; exact absurd h (lt_irrefl _)
  · exact h1

/-- A scan that hits returns a set bit. -/
theorem testBit_scanPos (mask c : Nat) (h : scanPos mask c < MAX_ATTRIBS) :
    mask.testBit (scanPos mask c) = true := by
  rw [scanPos] at h ⊢
  rcases scanPosAux_spec mask (MAX_ATTRIBS - c) c with ⟨he, -⟩ | ⟨-, -, h3, -⟩
  · rw [he] at h; exact absurd h (lt_irrefl _)
  · exact h3

/-- No set bit lies strictly between the start cursor and a scan hit. -/
theorem scanPos_least (mask c j : Nat) (hc : c ≤ j) (hj : j < scanPos mask c) :
    mask.testBit j = false := by
  rw [scanPos] at hj
  rcases scanPosAux_spec mask (MAX_ATTRIBS - c) c with ⟨he, hall⟩ | ⟨-, h2, -, h4⟩
  · rw [he] at hj
    refine hall j hc ?_
    have : INVALID_ATTRIB = MAX_ATTRIBS := rfl
    omega
  · exact h4 j hc hj

/-- A miss means there is no set bit in `[c, MAX_ATTRIBS)`. -/
theorem scanPos_miss (mask c : Nat) (h : ¬ scanPos mask c < MAX_ATTRIBS)
    (j : Nat) (hc : c ≤ j) (hj : j < MAX_ATTRIBS) : mask.testBit j = false := by
  rw [scanPos] at h
  rcases scanPosAux_spec mask (MAX_ATTRIBS - c) c with ⟨-, hall⟩ | ⟨h1, h2, -, -⟩
  · exact hall j hc (by omega)
  · exact absurd (by omega : scanPosAux mask (MAX_ATTRIBS - c) c < MAX_ATTRIBS) h

/-! ## The member list `mFrom` -/

theorem mem_mFromAux (mask : Nat) : ∀ fuel c a,
    a ∈ mFromAux mask fuel c ↔
      c ≤ a ∧ a < c + fuel ∧ mask.testBit a = true := by
  intro fuel
  induction fuel with
  | zero =>
    intro c a
    rw [mFromAux]
    simp only [List.not_mem_nil, false_iff]
    rintro ⟨h1, h2, -⟩
    omega
  | succ fuel ih =>
    intro c a
    rw [mFromAux]
    by_cases hb : mask.testBit c
    · rw [if_pos hb, List.mem_cons, ih (c + 1) a]
      constructor
      · rintro (rfl | ⟨h1, h2, h3⟩)
        · exact ⟨Nat.le_refl a, by omega, hb⟩
        · exact ⟨by omega, by omega, h3⟩
      · rintro ⟨h1, h2, h3⟩
        by_cases hca : a = c
        · exact Or.inl hca
        · exact Or.inr ⟨by omega, by omega, h3⟩
    · rw [if_neg hb, ih (c + 1) a]
      constructor
      · rintro ⟨h1, h2, h3⟩
        exact ⟨by omega, by omega, h3⟩
      · rintro ⟨h1, h2, h3⟩
        have hca : a ≠ c := by
          rintro rfl
          rw [h3] at hb
          exact hb rfl
        exact ⟨by omega, by omega, h3⟩

/-- Membership in the scan-ordered member list. -/
theorem mem_mFrom {mask c a : Nat} :
    a ∈ mFrom mask c ↔ c ≤ a ∧ a < MAX_ATTRIBS ∧ mask.testBit a = true := by
  rw [mFrom, mem_mFromAux]
  constructor
  · rintro ⟨h1, h2, h3⟩
    exact ⟨h1, by omega, h3⟩
  · rintro ⟨h1, h2, h3⟩
    exact ⟨h1, by omega, h3⟩

theorem mFromAux_pairwise (mask : Nat) : ∀ fuel c,
    List.Pairwise (· < ·) (mFromAux mask fuel c) := by
  intro fuel
  induction fuel with
  | zero => intro c; rw [mFromAux]; exact List.Pairwise.nil
  | succ fuel ih =>
    intro c
    rw [mFromAux]
    by_cases hb : mask.testBit c
    · rw [if_pos hb]
      refine List.Pairwise.cons (fun b hb2 => ?_) (ih (c + 1))
      have := (mem_mFromAux mask fuel (c + 1) b).mp hb2
      omega
    · rw [if_neg hb]
      exact ih (c + 1)

/-- The member list is strictly ascending. -/
theorem mFrom_pairwise (mask c : Nat) :
    List.Pairwise (· < ·) (mFrom mask c) := mFromAux_pairwise mask _ c

theorem mFrom_nodup (mask c : Nat) : (mFrom mask c).Nodup :=
  (mFrom_pairwise mask c).imp Nat.ne_of_lt

/-- Head decomposition of the member list along the scan: a hit contributes
its position followed by the members after it; a miss means the list is
empty. -/
theorem mFrom_eq_scan (mask c : Nat) :
    mFrom mask c = if scanPos mask c < MAX_ATTRIBS
      then scanPos mask c :: mFrom mask (scanPos mask c + 1) else [] := by
  by_cases hh : scanPos mask c < MAX_ATTRIBS
  · rw [if_pos hh]
    have hsorted1 : List.Pairwise (· < ·) (mFrom mask c) := mFrom_pairwise mask c
    have hsorted2 : List.Pairwise (· < ·)
        (scanPos mask c :: mFrom mask (scanPos mask c + 1)) := by
      refine List.Pairwise.cons (fun b hb => ?_) (mFrom_pairwise mask _)
      have := mem_mFrom.mp hb
      omega
    refine List.eq_of_perm_of_sorted ?_ hsorted1 hsorted2
    refine (List.perm_ext_iff_of_nodup (mFrom_nodup mask c)
      (hsorted2.imp Nat.ne_of_lt)).mpr (fun a => ?_)
    rw [mem_mFrom, List.mem_cons, mem_mFrom]
    constructor
    · rintro ⟨h1, h2, h3⟩
      by_cases ha : a = scanPos mask c
      · exact Or.inl ha
      · refine Or.inr ⟨?_, h2, h3⟩
        by_contra hc
        have : a < scanPos mask c := by omega
        rw [scanPos_least mask c a h1 this] at h3
        exact Bool.false_ne_true h3
    · rintro (rfl | ⟨h1, h2, h3⟩)
      · exact ⟨le_scanPos_of_lt mask c hh, hh, testBit_scanPos mask c hh⟩
      · exact ⟨by have := le_scanPos_of_lt mask c hh; omega, h2, h3⟩
  · rw [if_neg hh]
    refine List.eq_nil_iff_forall_not_mem.mpr (fun a ha => ?_)
    have ⟨h1, h2, h3⟩ := mem_mFrom.mp ha
    rw [scanPos_miss mask c hh a h1 h2] at h3
    exact Bool.false_ne_true h3

/-- For an in-range mask, the full member list has the popcount as its
length. -/
theorem length_mFrom_zero {mask : Nat} (h : mask < 2 ^ 26) :
    (mFrom mask 0).length = popcount32 mask := by
  rw [← List.toFinset_card_of_nodup (mFrom_nodup mask 0), popcount32_eq_card]
  congr 1
  ext a
  rw [List.mem_toFinset, mem_mFrom, Finset.mem_filter, Finset.mem_range]
  constructor
  · rintro ⟨-, h2, h3⟩
    exact ⟨by rw [MAX_ATTRIBS] at h2; omega, h3⟩
  · rintro ⟨h1, h3⟩
    refine ⟨Nat.zero_le a, ?_, h3⟩
    rw [MAX_ATTRIBS]
    by_contra hc
    rw [Nat.testBit_lt_two_pow
      (lt_of_lt_of_le h (Nat.pow_le_pow_right (by omega) (by omega)))] at h3
    exact Bool.false_ne_true h3

/-! ## The enumeration protocol of `Set_next_pos` -/

/-- Running `Set_next_pos` as many times as there are members left returns
exactly the remaining members in ascending order and leaves the struct in
the reset state (cursor and count zero): the reset happens at the moment
the last member is returned. -/
theorem Set_enumList_run : ∀ (k : Nat) (s : Set),
    s.count + (mFrom s.set s.cursor).length = s.size →
    s.size < 256 →
    (mFrom s.set s.cursor).length = k →
    0 < k →
    Set_enumList s k = (mFrom s.set s.cursor, { s with cursor := 0, count := 0 }) := by
  intro k
  induction k with
  | zero => intro s _ _ _ hk; exact absurd hk (lt_irrefl 0)
  | succ k ih =>
    intro s hcount hsize hlen _
    have hscan : scanPos s.set s.cursor < MAX_ATTRIBS := by
      by_contra hc
      rw [mFrom_eq_scan, if_neg hc] at hlen
      exact absurd hlen.symm (Nat.succ_ne_zero k)
    have hdecomp : mFrom s.set s.cursor =
        scanPos s.set s.cursor :: mFrom s.set (scanPos s.set s.cursor + 1) := by
      rw [mFrom_eq_scan, if_pos hscan]
    have hrestlen : (mFrom s.set (scanPos s.set s.cursor + 1)).length = k := by
      rw [hdecomp] at hlen
      simpa using hlen
    have hcount1 : s.count + 1 + k = s.size := by
      rw [hdecomp] at hcount
      simp only [List.length_cons] at hcount
      omega
    have hmod : (s.count + 1) % 2 ^ 8 = s.count + 1 :=
      Nat.mod_eq_of_lt (by omega)
    rw [Set_enumList]
    cases k with
    | zero =>
      have hfull : s.count + 1 = s.size := by omega
      have hnp : Set_next_pos s =
          ({ s with cursor := 0, count := 0 }, scanPos s.set s.cursor) := by
        rw [Set_next_pos]
        simp only [hscan, if_true]
        rw [hmod, if_pos hfull]
      simp only [hnp, Set_enumList]
      rw [hdecomp, List.length_eq_zero.mp hrestlen]
    | succ k' =>
      have hne : s.count + 1 ≠ s.size := by omega
      have hnp : Set_next_pos s =
          ({ s with cursor := scanPos s.set s.cursor + 1, count := s.count + 1 },
            scanPos s.set s.cursor) := by
        rw [Set_next_pos]
        simp only [hscan, if_true]
        rw [hmod, if_neg hne]
      have harg : ({ s with cursor := scanPos s.set s.cursor + 1, count := s.count + 1 } : Set).count + (mFrom s.set (scanPos s.set s.cursor + 1)).length = s.size := by
        simp only
        omega
      have hrec := ih { s with cursor := scanPos s.set s.cursor + 1, count := s.count + 1 }
        harg hsize hrestlen (Nat.succ_pos k')
      simp only [hnp, hrec, hdecomp]

/-! ## Claim C7: the enumeration protocol of `Set_next_pos` -/

/-- Claim C7 (refuted as stated): the claim says that when the enumeration
is exhausted, the call returns `INVALID_ATTRIB` and only then does the
cursor reset.  On the singleton set `{A}` (mask 1, size 1), the first call
returns the only member and already leaves the struct reset — the
enumeration is now exhausted — and the next call returns the first member
again, not `INVALID_ATTRIB`. -/
theorem claim_C7_counterexample :
    (Set_next_pos ⟨1, 1, 0, 0⟩).2 = 0 ∧
    (Set_next_pos ⟨1, 1, 0, 0⟩).1 = ⟨1, 1, 0, 0⟩ ∧
    (Set_next_pos (Set_next_pos ⟨1, 1, 0, 0⟩).1).2 ≠ INVALID_ATTRIB := by
  decide

/-- Claim C7, amended (proved): since the last reset, successive calls to
`Set_next_pos` return the member attributes in ascending bit order; at the
moment the **last** member is returned (not after a sentinel) the cursor
and count silently reset to `0`, so the set can be enumerated again; the
sentinel `INVALID_ATTRIB` is returned — with the struct left unchanged —
only when no member lies at or after the cursor, in particular on the
empty set. -/
theorem claim_C7_amended (s : Set) (hwf : wfReset s) (hlt : s.set < 2 ^ 26)
    (hpos : 0 < s.size) :
    Set_enumList s s.size = (mFrom s.set 0, s) ∧
    (∀ a, a ∈ mFrom s.set 0 ↔ a < MAX_ATTRIBS ∧ s.set.testBit a = true) ∧
    List.Pairwise (· < ·) (mFrom s.set 0) ∧
    (∀ t : Set, t.set = 0 → Set_next_pos t = (t, INVALID_ATTRIB)) := by
  obtain ⟨hsz, hcur, hcnt⟩ := hwf
  have hlen : (mFrom s.set 0).length = s.size := by
    rw [length_mFrom_zero hlt, hsz]
  have hsize : s.size < 256 := by
    have := popcount32_le s.set
    omega
  refine ⟨?_, ?_, mFrom_pairwise s.set 0, ?_⟩
  · have hrun := Set_enumList_run s.size s
      (by rw [hcur, hcnt, hlen]; omega) hsize (by rw [hcur, hlen]) hpos
    rw [hcur] at hrun
    have hself : ({ s with cursor := 0, count := 0 } : Set) = s := by
      obtain ⟨a, b, c, d⟩ := s
      simp only at hcur hcnt
      subst hcur
      subst hcnt
      rfl
    rw [hself] at hrun
    exact hrun
  · intro a
    rw [mem_mFrom]
    constructor
    · rintro ⟨-, h2, h3⟩; exact ⟨h2, h3⟩
    · rintro ⟨h2, h3⟩; exact ⟨Nat.zero_le a, h2, h3⟩
  · intro t ht
    have hmiss : ¬ scanPos t.set t.cursor < MAX_ATTRIBS := by
      intro hc
      have := testBit_scanPos t.set t.cursor hc
      rw [ht, Nat.zero_testBit] at this
      exact Bool.false_ne_true this
    rw [Set_next_pos]
    simp only [hmiss, if_false]

/-- Witness for the amended C7: enumerating the two-member set `{A, C}`
(mask 5) returns `[0, 2]` and restores the reset state; the empty set gets
the sentinel. -/
theorem claim_C7_witness :
    Set_enumList ⟨5, 2, 0, 0⟩ 2 = ([0, 2], ⟨5, 2, 0, 0⟩) ∧
    Set_next_pos ⟨0, 0, 0, 0⟩ = (⟨0, 0, 0, 0⟩, INVALID_ATTRIB) := by
  have h := claim_C7_amended ⟨5, 2, 0, 0⟩ (by decide) (by decide) (by decide)
  exact ⟨h.1, h.2.2.2 ⟨0, 0, 0, 0⟩ rfl⟩

/-! ## Single-bit popcount lemmas -/

theorem shiftLeft_one (i : Nat) : 1 <<< i = 2 ^ i := by
  rw [Nat.shiftLeft_eq, one_mul]

theorem popcount32_lor_single {m i : Nat} (hi : i < 32)
    (hb : m.testBit i = false) :
    popcount32 (m ||| 1 <<< i) = popcount32 m + 1 := by
  rw [popcount32_eq_card, popcount32_eq_card]
  have hset : (Finset.range 32).filter (fun j => (m ||| 1 <<< i).testBit j = true) =
      insert i ((Finset.range 32).filter (fun j => m.testBit j = true)) := by
    ext j
    rw [Finset.mem_insert, Finset.mem_filter, Finset.mem_filter, Finset.mem_range,
      Nat.testBit_lor, shiftLeft_one]
    constructor
    · rintro ⟨hj, hor⟩
      rcases (Bool.or_eq_true _ _).mp hor with h | h
      · right; exact ⟨hj, h⟩
      · left
        by_contra hne
        rw [Nat.testBit_two_pow_of_ne (fun he => hne he.symm)] at h
        exact Bool.false_ne_true h
    · rintro (rfl | ⟨hj, h⟩)
      · refine ⟨hi, ?_⟩
        rw [Nat.testBit_two_pow_self, Bool.or_true]
      · exact ⟨hj, by rw [h, Bool.true_or]⟩
  rw [hset, Finset.card_insert_of_not_mem]
  rw [Finset.mem_filter]
  rintro ⟨-, h⟩
  rw [hb] at h
  exact Bool.false_ne_true h

theorem popcount32_xor_single {m i : Nat} (hi : i < 32)
    (hb : m.testBit i = true) :
    popcount32 (m ^^^ 1 <<< i) = popcount32 m - 1 := by
  rw [popcount32_eq_card, popcount32_eq_card]
  have hset : (Finset.range 32).filter (fun j => (m ^^^ 1 <<< i).testBit j = true) =
      ((Finset.range 32).filter (fun j => m.testBit j = true)).erase i := by
    ext j
    rw [Finset.mem_erase, Finset.mem_filter, Finset.mem_filter, Finset.mem_range,
      Nat.testBit_xor, shiftLeft_one]
    constructor
    · rintro ⟨hj, hx⟩
      by_cases hji : j = i
      · subst hji
        rw [hb, Nat.testBit_two_pow_self] at hx
        exact absurd hx (by decide)
      · rw [Nat.testBit_two_pow_of_ne (fun he => hji he.symm), Bool.xor_false] at hx
        exact ⟨hji, hj, hx⟩
    · rintro ⟨hji, hj, h⟩
      rw [Nat.testBit_two_pow_of_ne (fun he => hji he.symm), Bool.xor_false]
      exact ⟨hj, h⟩
  rw [hset, Finset.card_erase_of_mem]
  rw [Finset.mem_filter, Finset.mem_range]
  exact ⟨hi, hb⟩

theorem popcount32_pos {m i : Nat} (hi : i < 32) (hb : m.testBit i = true) :
    1 ≤ popcount32 m := by
  rw [popcount32_eq_card]
  refine Finset.card_pos.mpr ⟨i, ?_⟩
  rw [Finset.mem_filter, Finset.mem_range]
  exact ⟨hi, hb⟩

theorem popcount32_zero : popcount32 0 = 0 := by decide

/-! ## Claim C9: difference stays inside the used attribute range -/

theorem USED_MASK_eq : USED_MASK = uMask 26 := by decide

/-- Claim C9 (refuted as stated): the final `Set_difference`
(src/set.c lines 30–36) applies **no** `USED_MASK`, so for the operand
`a` with bitmask `0xF0000003` (bits 0, 1, 28–31) and `b` with bitmask `1`
the result is `0xF0000002`, which keeps bit 28 — a position at or above
26 — and is changed by ANDing with `USED_MASK`.  Only the superseded
part_003 header revision masked the result. -/
theorem claim_C9_counterexample :
    (Set_difference ⟨0xF0000003, 4, 0, 0⟩ ⟨1, 1, 0, 0⟩).set = 0xF0000002 ∧
    (Set_difference ⟨0xF0000003, 4, 0, 0⟩ ⟨1, 1, 0, 0⟩).set.testBit 28 = true ∧
    (Set_difference ⟨0xF0000003, 4, 0, 0⟩ ⟨1, 1, 0, 0⟩).set &&& USED_MASK ≠
      (Set_difference ⟨0xF0000003, 4, 0, 0⟩ ⟨1, 1, 0, 0⟩).set := by
  refine ⟨rfl, rfl, ?_⟩
  decide

/-- Claim C9, amended (proved): for every set `a` whose bitmask lies
inside the valid attribute range — which holds for every set the program
constructs — and **every** set `b`, `Set_difference a b` contains no
position at or above 26, even at positions where the complement of `b`
has bits: the result is a subset of `a`, so
`result.set & USED_MASK == result.set`.  The unconditional masking of the
original claim is performed only by the superseded part_003 revision. -/
theorem claim_C9_difference_range (a b : Set)
    (ha : a.set &&& USED_MASK = a.set) :
    (Set_difference a b).set &&& USED_MASK = (Set_difference a b).set ∧
    ∀ i, 26 ≤ i → (Set_difference a b).set.testBit i = false := by
  have hsub : msub (Set_difference a b).set USED_MASK := by
    show msub (a.set &&& (uMask 32 ^^^ (b.set &&& uMask 32))) USED_MASK
    exact msub_trans (msub_land_left _ _) ha
  refine ⟨hsub, fun i hi => ?_⟩
  cases hbit : (Set_difference a b).set.testBit i with
  | false => rfl
  | true =>
    have := msub_uMask_iff.mp (USED_MASK_eq ▸ hsub) i hbit
    omega

/-- Witness for the amended C9 at a concrete in-range `a` and a `b` whose
complement has bits outside the range. -/
theorem claim_C9_witness :
    (Set_difference ⟨5, 2, 0, 0⟩ ⟨1, 1, 0, 0⟩).set &&& USED_MASK =
      (Set_difference ⟨5, 2, 0, 0⟩ ⟨1, 1, 0, 0⟩).set ∧
    (Set_difference ⟨5, 2, 0, 0⟩ ⟨1, 1, 0, 0⟩).set.testBit 28 = false :=
  ⟨(claim_C9_difference_range ⟨5, 2, 0, 0⟩ ⟨1, 1, 0, 0⟩ (by decide)).1,
   (claim_C9_difference_range ⟨5, 2, 0, 0⟩ ⟨1, 1, 0, 0⟩ (by decide)).2 28 (by omega)⟩

/-! ## Claim C4: the two superkey formulations diverge on a full seed -/

/-- Claim C4 (code bug): the claimed equivalence
`is_superkey(S, D, n) = Set_is_full(compute_closure(S, D, n), n)` fails on
the code: for the already-full seed `S = Set_full 1` over one attribute
with no dependencies, `is_superkey` answers `false` (it only reports
success when a union makes the closure full, and no union ever happens)
while the closure of `S` is of course full.  The full universe is trivially
a superkey, so `is_superkey` here contradicts its own documented meaning. -/
theorem claim_C4_divergence :
    is_superkey (Set_full 1) [] 1 = false ∧
    Set_is_full (compute_closure (Set_full 1) [] 1) 1 = true := by
  constructor <;> rfl

/-! ## Claim C8: mutator error behaviour of `src/set.c` -/

/-- Claim C8 (confirmed): `Set_insert` is a no-op when the attribute is
already present (given its asserts pass); `Set_remove` fails its asserts
when the attribute is absent or out of range; and both mutators fail their
asserts when an enumeration cursor is active (non-zero), so an in-progress
enumeration is never invalidated by a mutation. -/
theorem claim_C8_mutator_errors (s : Set) (i : Nat) :
    (i < MAX_ATTRIBS → s.cursor = 0 → s.set.testBit i = true →
      Set_insert_checked s i = some s) ∧
    ((s.set.testBit i = false ∨ MAX_ATTRIBS ≤ i) →
      Set_remove_checked s i = none) ∧
    (s.cursor ≠ 0 →
      Set_insert_checked s i = none ∧ Set_remove_checked s i = none) := by
  refine ⟨?_, ?_, ?_⟩
  · intro hi hc hb
    rw [Set_insert_checked, if_pos hi, if_pos hc, Set_insert, if_pos hb]
  · intro h
    rw [Set_remove_checked]
    by_cases hi : i < MAX_ATTRIBS
    · rcases h with h | h
      · rw [if_pos hi, h]
        simp
      · exact absurd hi (by omega)
    · rw [if_neg hi]
  · intro hc
    constructor
    · rw [Set_insert_checked]
      by_cases hi : i < MAX_ATTRIBS
      · rw [if_pos hi, if_neg hc]
      · rw [if_neg hi]
    · rw [Set_remove_checked]
      by_cases hi : i < MAX_ATTRIBS
      · rw [if_pos hi]
        by_cases hb : s.set.testBit i
        · rw [if_pos hb, if_neg hc]
        · rw [if_neg hb]
      · rw [if_neg hi]

/-- Witness for C8 at concrete inputs: inserting a present attribute is a
no-op, removing an absent one fails, and both mutators fail while a cursor
is active. -/
theorem claim_C8_witness :
    Set_insert_checked ⟨5, 2, 0, 0⟩ 0 = some ⟨5, 2, 0, 0⟩ ∧
    Set_remove_checked ⟨5, 2, 0, 0⟩ 1 = none ∧
    (Set_insert_checked ⟨5, 2, 1, 1⟩ 3 = none ∧
      Set_remove_checked ⟨5, 2, 1, 1⟩ 3 = none) :=
  ⟨(claim_C8_mutator_errors ⟨5, 2, 0, 0⟩ 0).1 (by decide) rfl (by decide),
   (claim_C8_mutator_errors ⟨5, 2, 0, 0⟩ 1).2.1 (Or.inl (by decide)),
   (claim_C8_mutator_errors ⟨5, 2, 1, 1⟩ 3).2.2 (by decide)⟩

/-! ## Claim C10: the size/popcount invariant -/

/-- Claim C10 (confirmed): every `Set` produced by a public operation
satisfies `size = popcount(set)` — outright for `union`, `intersection`,
`difference`, `init`, `clear`; for `copy` when the source satisfies it; for
`full` under its assert `n ≤ MAX_ATTRIBS`; and for `insert`/`remove` under
their asserts, when the input satisfies it.  This invariant makes
`Set_is_full` — which compares only the cached size with `n_attribs` — a
correct fullness test for sets contained in the `n`-attribute universe. -/
theorem claim_C10_size_invariant (s t : Set) (n i : Nat) :
    SizeInv (Set_union s t) ∧
    SizeInv (Set_intersection s t) ∧
    SizeInv (Set_difference s t) ∧
    SizeInv Set_init ∧
    SizeInv (Set_clear s) ∧
    (SizeInv s → SizeInv (Set_copy s)) ∧
    (n ≤ MAX_ATTRIBS → SizeInv (Set_full n)) ∧
    (SizeInv s → i < MAX_ATTRIBS → SizeInv (Set_insert s i)) ∧
    (SizeInv s → i < MAX_ATTRIBS → s.set.testBit i = true →
      SizeInv (Set_remove s i)) ∧
    (SizeInv s → msub s.set (uMask n) → n ≤ MAX_ATTRIBS →
      (Set_is_full s n = true ↔ s.set = uMask n)) := by
  rw [MAX_ATTRIBS]
  refine ⟨rfl, rfl, rfl, by decide, (by decide : SizeInv Set_init),
    fun h => h, ?_, ?_, ?_, ?_⟩
  · intro hn
    show n = popcount32 (uMask n)
    rw [popcount32_uMask (by omega)]
  · intro hs hi
    rw [Set_insert]
    by_cases hb : s.set.testBit i
    · rw [if_pos hb]; exact hs
    · rw [if_neg hb]
      show (s.size + 1) % 2 ^ 8 = popcount32 (s.set ||| 1 <<< i)
      rw [popcount32_lor_single (by omega) (Bool.eq_false_iff.mpr hb)]
      have h32 := popcount32_le s.set
      rw [SizeInv] at hs
      omega
  · intro hs hi hb
    show (s.size + 255) % 2 ^ 8 = popcount32 (s.set ^^^ 1 <<< i)
    rw [popcount32_xor_single (by omega) hb]
    have h32 := popcount32_le s.set
    have h1 := popcount32_pos (m := s.set) (by omega) hb
    rw [SizeInv] at hs
    omega
  · intro hs hsub hn
    rw [Set_is_full, beq_iff_eq, SizeInv] at *
    constructor
    · intro he
      exact eq_uMask_of_popcount hsub (by omega) (by omega)
    · intro he
      rw [hs, he, popcount32_uMask (by omega)]

/-- Witness for C10 at concrete inputs. -/
theorem claim_C10_witness :
    SizeInv (Set_union ⟨3, 2, 0, 0⟩ ⟨5, 2, 0, 0⟩) ∧
    SizeInv (Set_insert ⟨3, 2, 0, 0⟩ 4) ∧
    SizeInv (Set_remove ⟨3, 2, 0, 0⟩ 1) ∧
    (Set_is_full ⟨3, 2, 0, 0⟩ 2 = true ↔ (3 : Nat) = uMask 2) := by
  have h1 := claim_C10_size_invariant ⟨3, 2, 0, 0⟩ ⟨5, 2, 0, 0⟩ 2 4
  have h2 := claim_C10_size_invariant ⟨3, 2, 0, 0⟩ ⟨5, 2, 0, 0⟩ 2 1
  exact ⟨h1.1, h1.2.2.2.2.2.2.2.1 (by decide) (by decide),
    h2.2.2.2.2.2.2.2.2.1 (by decide) (by decide) (by decide),
    h1.2.2.2.2.2.2.2.2.2 (by decide) (by decide) (by decide)⟩

/-! ## The closure pass -/

theorem Set_contains_iff {s t : Set} :
    Set_contains s t = true ↔ msub t.set s.set := by
  rw [Set_contains, beq_iff_eq, msub, Nat.land_comm]

theorem wfReset_union (s t : Set) : wfReset (Set_union s t) := ⟨rfl, rfl, rfl⟩

theorem wfReset_mkSet (m : Nat) : wfReset (mkSet m) := ⟨rfl, rfl, rfl⟩

theorem Set_copy_of_wf {s : Set} (h : wfReset s) : Set_copy s = mkSet s.set := by
  rw [Set_copy, mkSet, h.1]

/-- The pass only ever unions new attribute sets into the closure. -/
theorem closurePass_grows (n : Nat) (q : List q_key) : ∀ (c : Set) (flag : Bool),
    msub c.set (closurePass n c flag q).1.set := by
  induction q with
  | nil => intro c flag; exact msub_refl c.set
  | cons d rest ih =>
    intro c flag
    rw [closurePass]
    by_cases hc : (Set_contains c d.lhs && !Set_contains c d.rhs) = true
    · rw [if_pos hc]
      by_cases hf : Set_is_full (Set_union c d.rhs) n = true
      · rw [if_pos hf]
        exact msub_lor_left c.set d.rhs.set
      · rw [if_neg hf]
        exact msub_trans (msub_lor_left c.set d.rhs.set) (ih (Set_union c d.rhs) true)
    · rw [if_neg hc]
      exact ih c flag

/-- The pass preserves well-formedness. -/
theorem closurePass_wf (n : Nat) (q : List q_key) : ∀ (c : Set) (flag : Bool),
    wfReset c → wfReset (closurePass n c flag q).1 := by
  induction q with
  | nil => intro c flag h; exact h
  | cons d rest ih =>
    intro c flag h
    rw [closurePass]
    by_cases hc : (Set_contains c d.lhs && !Set_contains c d.rhs) = true
    · rw [if_pos hc]
      by_cases hf : Set_is_full (Set_union c d.rhs) n = true
      · rw [if_pos hf]
        exact wfReset_union c d.rhs
      · rw [if_neg hf]
        exact ih (Set_union c d.rhs) true (wfReset_union c d.rhs)
    · rw [if_neg hc]
      exact ih c flag h

/-- The pass keeps the closure inside the universe. -/
theorem closurePass_inrange {n : Nat} {q : List q_key} (hq : depsWF q n) :
    ∀ (c : Set) (flag : Bool), msub c.set (uMask n) →
      msub (closurePass n c flag q).1.set (uMask n) := by
  induction q with
  | nil => intro c flag h; exact h
  | cons d rest ih =>
    intro c flag h
    have hd := hq d (List.mem_cons_self d rest)
    have hrest : depsWF rest n := fun e he => hq e (List.mem_cons_of_mem d he)
    rw [closurePass]
    by_cases hc : (Set_contains c d.lhs && !Set_contains c d.rhs) = true
    · rw [if_pos hc]
      have hu : msub (Set_union c d.rhs).set (uMask n) :=
        lor_msub h hd.2.2.2
      by_cases hf : Set_is_full (Set_union c d.rhs) n = true
      · rw [if_pos hf]; exact hu
      · rw [if_neg hf]; exact ih hrest (Set_union c d.rhs) true hu
    · rw [if_neg hc]
      exact ih hrest c flag h

/-- The pass stays below every closed superset of the start closure. -/
theorem closurePass_least {n : Nat} {q : List q_key} {C : Nat}
    (hC : closedM q C) : ∀ (c : Set) (flag : Bool), msub c.set C →
      msub (closurePass n c flag q).1.set C := by
  induction q with
  | nil => intro c flag h; exact h
  | cons d rest ih =>
    intro c flag h
    have hrest : closedM rest C := fun e he => hC e (List.mem_cons_of_mem d he)
    rw [closurePass]
    by_cases hc : (Set_contains c d.lhs && !Set_contains c d.rhs) = true
    · rw [if_pos hc]
      have hlhs : msub d.lhs.set c.set :=
        Set_contains_iff.mp ((Bool.and_eq_true _ _).mp hc).1
      have hrhs : msub d.rhs.set C :=
        hC d (List.mem_cons_self d rest) (msub_trans hlhs h)
      have hu : msub (Set_union c d.rhs).set C := lor_msub h hrhs
      by_cases hf : Set_is_full (Set_union c d.rhs) n = true
      · rw [if_pos hf]; exact hu
      · rw [if_neg hf]; exact ih hrest (Set_union c d.rhs) true hu
    · rw [if_neg hc]
      exact ih hrest c flag h

/-- A pass that exits early produced a size-full closure. -/
theorem closurePass_exit_full (n : Nat) (q : List q_key) :
    ∀ (c : Set) (flag : Bool), (closurePass n c flag q).2.2 = true →
      Set_is_full (closurePass n c flag q).1 n = true := by
  induction q with
  | nil => intro c flag h; exact absurd h (by simp [closurePass])
  | cons d rest ih =>
    intro c flag h
    rw [closurePass] at h ⊢
    by_cases hc : (Set_contains c d.lhs && !Set_contains c d.rhs) = true
    · rw [if_pos hc] at h ⊢
      by_cases hf : Set_is_full (Set_union c d.rhs) n = true
      · rw [if_pos hf]; exact hf
      · rw [if_neg hf] at h ⊢; exact ih (Set_union c d.rhs) true h
    · rw [if_neg hc] at h ⊢
      exact ih c flag h

/-- A pass entered with the new-attribute flag already raised reports the
flag raised. -/
theorem closurePass_flag_true (n : Nat) (q : List q_key) : ∀ (c : Set),
    (closurePass n c true q).2.1 = true := by
  induction q with
  | nil => intro c; rfl
  | cons d rest ih =>
    intro c
    rw [closurePass]
    by_cases hc : (Set_contains c d.lhs && !Set_contains c d.rhs) = true
    · rw [if_pos hc]
      by_cases hf : Set_is_full (Set_union c d.rhs) n = true
      · rw [if_pos hf]
      · rw [if_neg hf]; exact ih (Set_union c d.rhs)
    · rw [if_neg hc]; exact ih c

/-- A pass that neither changed anything nor exited leaves the closure
untouched and witnesses closedness. -/
theorem closurePass_stable (n : Nat) (q : List q_key) :
    ∀ (c : Set), (closurePass n c false q).2.1 = false →
      (closurePass n c false q).2.2 = false →
      (closurePass n c false q).1 = c ∧ closedM q c.set := by
  induction q with
  | nil =>
    intro c _ _
    exact ⟨rfl, fun d hd => absurd hd (List.not_mem_nil d)⟩
  | cons d rest ih =>
    intro c hflag hexit
    rw [closurePass] at hflag hexit
    by_cases hc : (Set_contains c d.lhs && !Set_contains c d.rhs) = true
    · exfalso
      rw [if_pos hc] at hflag
      by_cases hf : Set_is_full (Set_union c d.rhs) n = true
      · rw [if_pos hf] at hflag
        simp at hflag
      · rw [if_neg hf] at hflag
        rw [closurePass_flag_true n rest (Set_union c d.rhs)] at hflag
        simp at hflag
    · rw [if_neg hc] at hflag hexit
      obtain ⟨h1, h2⟩ := ih c hflag hexit
      refine ⟨by rw [closurePass, if_neg hc]; exact h1, fun e he hsub => ?_⟩
      rcases List.mem_cons.mp he with rfl | he2
      · by_cases hr : Set_contains c e.rhs = true
        · exact Set_contains_iff.mp hr
        · exfalso
          apply hc
          rw [Set_contains_iff.mpr hsub, Bool.true_and, Bool.not_eq_true']
          exact Bool.eq_false_iff.mpr hr
      · exact h2 e he2 hsub

/-- A pass that raised the new-attribute flag strictly enlarged the
closure bitmask. -/
theorem closurePass_strict (n : Nat) (q : List q_key) : ∀ (c : Set),
    (closurePass n c false q).2.1 = true → c.set ≠ (closurePass n c false q).1.set := by
  induction q with
  | nil => intro c h; exact absurd h (by simp [closurePass])
  | cons d rest ih =>
    intro c hflag
    rw [closurePass] at hflag ⊢
    by_cases hc : (Set_contains c d.lhs && !Set_contains c d.rhs) = true
    · rw [if_pos hc] at hflag ⊢
      have hnew : ¬ msub d.rhs.set c.set := by
        intro hsub
        have := ((Bool.and_eq_true _ _).mp hc).2
        rw [Set_contains_iff.mpr hsub] at this
        simp at this
      have hne : c.set ≠ (Set_union c d.rhs).set := by
        intro he
        apply hnew
        have : msub d.rhs.set (Set_union c d.rhs).set := msub_lor_right c.set d.rhs.set
        rw [← he] at this
        exact this
      by_cases hf : Set_is_full (Set_union c d.rhs) n = true
      · rw [if_pos hf] at hflag ⊢
        exact hne
      · rw [if_neg hf] at hflag ⊢
        intro he
        apply hne
        refine msub_antisymm (msub_lor_left c.set d.rhs.set) ?_
        rw [he]
        exact closurePass_grows n rest (Set_union c d.rhs) true
    · rw [if_neg hc] at hflag ⊢
      exact ih c hflag

/-! ## The outer closure loop -/

theorem closLoop_grows (q : List q_key) (n : Nat) : ∀ (fuel : Nat) (c : Set),
    msub c.set (closLoop q n fuel c).set := by
  intro fuel
  induction fuel with
  | zero => intro c; exact msub_refl c.set
  | succ fuel ih =>
    intro c
    rw [closLoop]
    rcases hp : closurePass n c false q with ⟨c', flag, exit⟩
    have hgrow : msub c.set c'.set := by
      have := closurePass_grows n q c false
      rw [hp] at this
      exact this
    cases exit with
    | true =>
      cases flag with
      | true => exact hgrow
      | false => exact hgrow
    | false =>
      cases flag with
      | true => exact msub_trans hgrow (ih c')
      | false => exact hgrow

theorem closLoop_wf (q : List q_key) (n : Nat) : ∀ (fuel : Nat) (c : Set),
    wfReset c → wfReset (closLoop q n fuel c) := by
  intro fuel
  induction fuel with
  | zero => intro c h; exact h
  | succ fuel ih =>
    intro c hwf
    rw [closLoop]
    rcases hp : closurePass n c false q with ⟨c', flag, exit⟩
    have hwf' : wfReset c' := by
      have := closurePass_wf n q c false hwf
      rw [hp] at this
      exact this
    cases exit with
    | true =>
      cases flag with
      | true => exact hwf'
      | false => exact hwf'
    | false =>
      cases flag with
      | true => exact ih c' hwf'
      | false => exact hwf'

theorem closLoop_inrange {q : List q_key} {n : Nat} (hq : depsWF q n) :
    ∀ (fuel : Nat) (c : Set), msub c.set (uMask n) →
      msub (closLoop q n fuel c).set (uMask n) := by
  intro fuel
  induction fuel with
  | zero => intro c h; exact h
  | succ fuel ih =>
    intro c hin
    rw [closLoop]
    rcases hp : closurePass n c false q with ⟨c', flag, exit⟩
    have hin' : msub c'.set (uMask n) := by
      have := closurePass_inrange hq c false hin
      rw [hp] at this
      exact this
    cases exit with
    | true =>
      cases flag with
      | true => exact hin'
      | false => exact hin'
    | false =>
      cases flag with
      | true => exact ih c' hin'
      | false => exact hin'

theorem closLoop_least {q : List q_key} {n : Nat} {C : Nat} (hC : closedM q C) :
    ∀ (fuel : Nat) (c : Set), msub c.set C →
      msub (closLoop q n fuel c).set C := by
  intro fuel
  induction fuel with
  | zero => intro c h; exact h
  | succ fuel ih =>
    intro c hin
    rw [closLoop]
    rcases hp : closurePass n c false q with ⟨c', flag, exit⟩
    have hin' : msub c'.set C := by
      have := @closurePass_least n q C hC c false hin
      rw [hp] at this
      exact this
    cases exit with
    | true =>
      cases flag with
      | true => exact hin'
      | false => exact hin'
    | false =>
      cases flag with
      | true => exact ih c' hin'
      | false => exact hin'

/-- The full universe is closed under in-range dependencies. -/
theorem closedM_uMask {q : List q_key} {n : Nat} (hq : depsWF q n) :
    closedM q (uMask n) := fun d hd _ => (hq d hd).2.2.2

/-- With enough fuel — each continuing pass strictly grows a closure that
lives inside the 26-bit universe — the loop reaches a closed bitmask. -/
theorem closLoop_closed {q : List q_key} {n : Nat} (hq : depsWF q n)
    (hn : n ≤ MAX_ATTRIBS) : ∀ (fuel : Nat) (c : Set), wfReset c →
    msub c.set (uMask n) → 27 ≤ popcount32 c.set + fuel →
    closedM q (closLoop q n fuel c).set := by
  intro fuel
  induction fuel with
  | zero =>
    intro c _ hin hcnt
    exfalso
    have h1 : popcount32 c.set ≤ n := popcount32_le_of_msub_uMask hin
      (by rw [MAX_ATTRIBS] at hn; omega)
    rw [MAX_ATTRIBS] at hn
    omega
  | succ fuel ih =>
    intro c hwf hin hcnt
    rw [closLoop]
    rcases hp : closurePass n c false q with ⟨c', flag, exit⟩
    have hwf' : wfReset c' := by
      have := closurePass_wf n q c false hwf; rw [hp] at this; exact this
    have hin' : msub c'.set (uMask n) := by
      have := closurePass_inrange hq c false hin; rw [hp] at this; exact this
    have hgrow : msub c.set c'.set := by
      have := closurePass_grows n q c false; rw [hp] at this; exact this
    cases exit with
    | true =>
      have hfull : Set_is_full c' n = true := by
        have := closurePass_exit_full n q c false (by rw [hp])
        rw [hp] at this
        exact this
      have heq : c'.set = uMask n := by
        rw [Set_is_full, beq_iff_eq] at hfull
        exact eq_uMask_of_popcount hin' (by rw [MAX_ATTRIBS] at hn; omega)
          (by rw [← hwf'.1, hfull])
      have hgoal : closedM q c'.set := by
        rw [heq]
        exact closedM_uMask hq
      cases flag with
      | true => exact hgoal
      | false => exact hgoal
    | false =>
      cases flag with
      | true =>
        have hne : c.set ≠ c'.set := by
          have := closurePass_strict n q c (by rw [hp])
          rw [hp] at this
          exact this
        have hlt : popcount32 c.set < popcount32 c'.set :=
          popcount32_strict_mono hgrow hne
            (lt_of_lt_of_le (lt_of_msub_uMask hin')
              (Nat.pow_le_pow_right (by omega) (by rw [MAX_ATTRIBS] at hn; omega)))
        exact ih c' hwf' hin' (by omega)
      | false =>
        have hstable := closurePass_stable n q c (by rw [hp]) (by rw [hp])
        have hcc : c' = c := by
          have := hstable.1
          rw [hp] at this
          exact this
        show closedM q c'.set
        rw [hcc]
        exact hstable.2

/-- Full specification of `compute_closure` on well-formed in-range input:
it contains the seed, is closed, is below every closed superset of the
seed, is well-formed, and stays inside the universe. -/
theorem compute_closure_spec {q : List q_key} {n : Nat} (hq : depsWF q n)
    (hn : n ≤ MAX_ATTRIBS) (s : Set) (hs : wfReset s)
    (hsub : msub s.set (uMask n)) :
    msub s.set (compute_closure s q n).set ∧
    closedM q (compute_closure s q n).set ∧
    (∀ C, msub s.set C → closedM q C → msub (compute_closure s q n).set C) ∧
    wfReset (compute_closure s q n) ∧
    msub (compute_closure s q n).set (uMask n) := by
  have hcopy : wfReset (Set_copy s) := ⟨hs.1, rfl, rfl⟩
  have hset : (Set_copy s).set = s.set := rfl
  rw [compute_closure]
  refine ⟨closLoop_grows q n 33 (Set_copy s), ?_, ?_, ?_, ?_⟩
  · refine closLoop_closed hq hn 33 (Set_copy s) hcopy hsub ?_
    omega
  · intro C hsC hC
    exact closLoop_least hC 33 (Set_copy s) hsC
  · exact closLoop_wf q n 33 (Set_copy s) hcopy
  · exact closLoop_inrange hq 33 (Set_copy s) hsub

/-! ## The early-exit superkey loop -/

/-- A pass that does not exit either leaves the closure untouched or ends
on a closure whose size check fails. -/
theorem closurePass_no_exit (n : Nat) (q : List q_key) : ∀ (c : Set) (flag : Bool),
    (closurePass n c flag q).2.2 = false →
    ((closurePass n c flag q).1 = c ∨
      Set_is_full (closurePass n c flag q).1 n = false) := by
  induction q with
  | nil => intro c flag _; exact Or.inl rfl
  | cons d rest ih =>
    intro c flag hexit
    rw [closurePass] at hexit ⊢
    by_cases hc : (Set_contains c d.lhs && !Set_contains c d.rhs) = true
    · rw [if_pos hc] at hexit ⊢
      by_cases hf : Set_is_full (Set_union c d.rhs) n = true
      · rw [if_pos hf] at hexit
        simp at hexit
      · rw [if_neg hf] at hexit ⊢
        rcases ih (Set_union c d.rhs) true hexit with h | h
        · right
          rw [h]
          exact Bool.eq_false_iff.mpr hf
        · right
          exact h
    · rw [if_neg hc] at hexit ⊢
      exact ih c flag hexit

/-- Over in-range dependencies, a closure already containing the universe
makes the pass a no-op. -/
theorem closurePass_of_full {q : List q_key} {n : Nat} (hq : depsWF q n) :
    ∀ (c : Set) (flag : Bool), msub (uMask n) c.set →
      closurePass n c flag q = (c, flag, false) := by
  induction q with
  | nil => intro c flag _; rfl
  | cons d rest ih =>
    intro c flag hfull
    have hd := hq d (List.mem_cons_self d rest)
    have hrest : depsWF rest n := fun e he => hq e (List.mem_cons_of_mem d he)
    rw [closurePass]
    have hrhs : Set_contains c d.rhs = true :=
      Set_contains_iff.mpr (msub_trans hd.2.2.2 hfull)
    have hcond : (Set_contains c d.lhs && !Set_contains c d.rhs) = false := by
      rw [hrhs]
      simp
    rw [if_neg (by rw [hcond]; exact Bool.false_ne_true)]
    exact ih hrest c flag hfull

/-- The superkey loop answers `false` on a seed that already contains the
universe (the root of the C4 divergence). -/
theorem skLoop_of_full {q : List q_key} {n : Nat} (hq : depsWF q n) :
    ∀ (fuel : Nat) (c : Set), msub (uMask n) c.set →
      skLoop q n fuel c = false := by
  intro fuel
  cases fuel with
  | zero => intro c _; rfl
  | succ fuel =>
    intro c hfull
    rw [skLoop, closurePass_of_full hq c false hfull]

/-- When the superkey loop answers `true`, the closure loop run from the
same state ends full. -/
theorem skLoop_true_closure {q : List q_key} {n : Nat} (hq : depsWF q n)
    (hn : n ≤ MAX_ATTRIBS) : ∀ (fuel : Nat) (c : Set), wfReset c →
    msub c.set (uMask n) → skLoop q n fuel c = true →
    (closLoop q n fuel c).set = uMask n := by
  intro fuel
  induction fuel with
  | zero => intro c _ _ h; exact absurd h (by rw [skLoop]; exact Bool.false_ne_true)
  | succ fuel ih =>
    intro c hwf hin hsk
    rw [skLoop] at hsk
    rw [closLoop]
    rcases hp : closurePass n c false q with ⟨c', flag, exit⟩
    rw [hp] at hsk
    have hwf' : wfReset c' := by
      have := closurePass_wf n q c false hwf; rw [hp] at this; exact this
    have hin' : msub c'.set (uMask n) := by
      have := closurePass_inrange hq c false hin; rw [hp] at this; exact this
    cases exit with
    | true =>
      have hfull : Set_is_full c' n = true := by
        have := closurePass_exit_full n q c false (by rw [hp])
        rw [hp] at this
        exact this
      have heq : c'.set = uMask n := by
        rw [Set_is_full, beq_iff_eq] at hfull
        exact eq_uMask_of_popcount hin' (by rw [MAX_ATTRIBS] at hn; omega)
          (by rw [← hwf'.1, hfull])
      cases flag with
      | true => exact heq
      | false => exact heq
    | false =>
      cases flag with
      | true => exact ih c' hwf' hin' hsk
      | false => simp at hsk

/-- Conversely: if the closure loop ends full and the start closure was not
yet the universe, the superkey loop answers `true`. -/
theorem closure_full_skLoop {q : List q_key} {n : Nat} (hq : depsWF q n)
    (hn : n ≤ MAX_ATTRIBS) : ∀ (fuel : Nat) (c : Set), wfReset c →
    msub c.set (uMask n) → c.set ≠ uMask n →
    (closLoop q n fuel c).set = uMask n → skLoop q n fuel c = true := by
  intro fuel
  induction fuel with
  | zero =>
    intro c _ _ hne hcl
    rw [closLoop] at hcl
    exact absurd hcl hne
  | succ fuel ih =>
    intro c hwf hin hne hcl
    rw [closLoop] at hcl
    rw [skLoop]
    rcases hp : closurePass n c false q with ⟨c', flag, exit⟩
    rw [hp] at hcl
    have hwf' : wfReset c' := by
      have := closurePass_wf n q c false hwf; rw [hp] at this; exact this
    have hin' : msub c'.set (uMask n) := by
      have := closurePass_inrange hq c false hin; rw [hp] at this; exact this
    cases exit with
    | true =>
      cases flag with
      | true => rfl
      | false => rfl
    | false =>
      have hnoexit := closurePass_no_exit n q c false (by rw [hp])
      cases flag with
      | true =>
        refine ih c' hwf' hin' ?_ hcl
        rcases hnoexit with h | h
        · rw [hp] at h
          simp only at h
          rw [h]
          exact hne
        · rw [hp] at h
          simp only at h
          intro he
          rw [Set_is_full] at h
          have hsz : c'.size ≠ n := by
            intro hh
            rw [hh] at h
            simp at h
          apply hsz
          rw [hwf'.1, he, popcount32_uMask (by rw [MAX_ATTRIBS] at hn; omega)]
      | false =>
        exfalso
        have hstable := closurePass_stable n q c (by rw [hp]) (by rw [hp])
        have hcc : c' = c := by
          have := hstable.1; rw [hp] at this; exact this
        rw [hcc] at hcl
        exact hne hcl

/-- For a well-formed seed, `compute_closure` depends only on the seed's
bitmask. -/
theorem compute_closure_mkSet {q : List q_key} {n : Nat} (s : Set)
    (hs : wfReset s) :
    compute_closure s q n = compute_closure (mkSet s.set) q n := by
  rw [compute_closure, compute_closure, Set_copy_of_wf hs]
  rfl

/-- For a well-formed seed, `is_superkey` depends only on the seed's
bitmask. -/
theorem is_superkey_mkSet {q : List q_key} {n : Nat} (s : Set)
    (hs : wfReset s) :
    is_superkey s q n = is_superkey (mkSet s.set) q n := by
  rw [is_superkey, is_superkey, Set_copy_of_wf hs]
  rfl

/-- The early-exit superkey test, characterized: it answers `true` exactly
when the closure of the seed is the full universe **and** the seed itself
was not already full — the latter conjunct is the C4 divergence. -/
theorem is_superkey_char {q : List q_key} {n : Nat} (hq : depsWF q n)
    (hn : n ≤ MAX_ATTRIBS) (s : Set) (hs : wfReset s)
    (hsub : msub s.set (uMask n)) :
    is_superkey s q n = true ↔
      ((compute_closure s q n).set = uMask n ∧ s.set ≠ uMask n) := by
  have hcopy : wfReset (Set_copy s) := ⟨hs.1, rfl, rfl⟩
  rw [is_superkey, compute_closure]
  constructor
  · intro h
    refine ⟨skLoop_true_closure hq hn 33 (Set_copy s) hcopy hsub h, ?_⟩
    intro he
    rw [skLoop_of_full hq 33 (Set_copy s)
      (by show msub (uMask n) s.set; rw [he]; exact msub_refl _)] at h
    exact Bool.false_ne_true h
  · rintro ⟨hcl, hne⟩
    exact closure_full_skLoop hq hn 33 (Set_copy s) hcopy hsub hne hcl

/-! ## Claim C5: the closure is the least closed superset -/

/-- Claim C5 (confirmed): for every well-formed seed with only in-range
attributes and every in-range dependency set, `compute_closure` returns a
set that contains the seed, is closed under every dependency (`lhs ⊆ C`
implies `rhs ⊆ C`), and is contained in every closed superset of the seed —
i.e. it is the smallest closed superset. -/
theorem claim_C5_closure_least (s : Set) (q : List q_key) (n : Nat)
    (hs : wfReset s) (hsub : msub s.set (uMask n)) (hq : depsWF q n)
    (hn : n ≤ MAX_ATTRIBS) :
    msub s.set (compute_closure s q n).set ∧
    closedM q (compute_closure s q n).set ∧
    ∀ C, msub s.set C → closedM q C → msub (compute_closure s q n).set C := by
  have h := compute_closure_spec hq hn s hs hsub
  exact ⟨h.1, h.2.1, h.2.2.1⟩

/-- Witness for C5: the closure of `{A}` under `A → B` over two attributes
contains the seed, is closed, and is contained in the closed superset
`{A, B}` (mask 3). -/
theorem claim_C5_witness :
    msub 1 (compute_closure (mkSet 1) [⟨mkSet 1, mkSet 2⟩] 2).set ∧
    closedM [⟨mkSet 1, mkSet 2⟩]
      (compute_closure (mkSet 1) [⟨mkSet 1, mkSet 2⟩] 2).set ∧
    msub (compute_closure (mkSet 1) [⟨mkSet 1, mkSet 2⟩] 2).set 3 := by
  have h := claim_C5_closure_least (mkSet 1) [⟨mkSet 1, mkSet 2⟩] 2
    (by decide) (by decide) (by decide) (by decide)
  exact ⟨h.1, h.2.1, h.2.2 3 (by decide) (by decide)⟩

/-! ## Mask-level closure corollaries -/

theorem closM_contains {q : List q_key} {n : Nat} (hq : depsWF q n)
    (hn : n ≤ MAX_ATTRIBS) {m : Nat} (hm : msub m (uMask n)) :
    msub m (closM q n m) :=
  (compute_closure_spec hq hn (mkSet m) (wfReset_mkSet m) hm).1

theorem closM_closed {q : List q_key} {n : Nat} (hq : depsWF q n)
    (hn : n ≤ MAX_ATTRIBS) {m : Nat} (hm : msub m (uMask n)) :
    closedM q (closM q n m) :=
  (compute_closure_spec hq hn (mkSet m) (wfReset_mkSet m) hm).2.1

theorem closM_least {q : List q_key} {n : Nat} (hq : depsWF q n)
    (hn : n ≤ MAX_ATTRIBS) {m : Nat} (hm : msub m (uMask n)) {C : Nat}
    (hmC : msub m C) (hC : closedM q C) : msub (closM q n m) C :=
  (compute_closure_spec hq hn (mkSet m) (wfReset_mkSet m) hm).2.2.1 C hmC hC

theorem closM_inrange {q : List q_key} {n : Nat} (hq : depsWF q n)
    (hn : n ≤ MAX_ATTRIBS) {m : Nat} (hm : msub m (uMask n)) :
    msub (closM q n m) (uMask n) :=
  (compute_closure_spec hq hn (mkSet m) (wfReset_mkSet m) hm).2.2.2.2

/-- `superkeyM` is monotone along mask inclusion. -/
theorem superkeyM_mono {q : List q_key} {n : Nat} (hq : depsWF q n)
    (hn : n ≤ MAX_ATTRIBS) {m1 m2 : Nat} (h12 : msub m1 m2)
    (h2 : msub m2 (uMask n)) (hsk : superkeyM q n m1) : superkeyM q n m2 := by
  have h1 : msub m1 (uMask n) := msub_trans h12 h2
  have hle : msub (closM q n m1) (closM q n m2) :=
    closM_least hq hn h1 (msub_trans h12 (closM_contains hq hn h2))
      (closM_closed hq hn h2)
  have hsk' : closM q n m1 = uMask n := hsk
  show closM q n m2 = uMask n
  exact msub_antisymm (closM_inrange hq hn h2) (by rw [← hsk']; exact hle)

/-- A closed superkey is the whole universe. -/
theorem closed_superkeyM_eq {q : List q_key} {n : Nat} (hq : depsWF q n)
    (hn : n ≤ MAX_ATTRIBS) {m : Nat} (hm : msub m (uMask n))
    (hcl : closedM q m) (hsk : superkeyM q n m) : m = uMask n := by
  have hsk' : closM q n m = uMask n := hsk
  have := closM_least hq hn hm (msub_refl m) hcl
  rw [hsk'] at this
  exact msub_antisymm hm this

/-- The full universe is a superkey. -/
theorem superkeyM_uMask {q : List q_key} {n : Nat} (hq : depsWF q n)
    (hn : n ≤ MAX_ATTRIBS) : superkeyM q n (uMask n) := by
  show closM q n (uMask n) = uMask n
  exact msub_antisymm (closM_inrange hq hn (msub_refl _))
    (closM_contains hq hn (msub_refl _))

/-- The program's `is_superkey` in terms of the mathematical superkey
predicate, for well-formed in-range arguments. -/
theorem is_superkey_true_iff {q : List q_key} {n : Nat} (hq : depsWF q n)
    (hn : n ≤ MAX_ATTRIBS) (s : Set) (hs : wfReset s)
    (hsub : msub s.set (uMask n)) :
    is_superkey s q n = true ↔ (superkeyM q n s.set ∧ s.set ≠ uMask n) := by
  rw [is_superkey_char hq hn s hs hsub, compute_closure_mkSet s hs]

/-! ## Claim C3: the minimal-key reduction -/

theorem testBit_xor_single_self {m i : Nat} :
    (m ^^^ 1 <<< i).testBit i = !m.testBit i := by
  rw [Nat.testBit_xor, shiftLeft_one, Nat.testBit_two_pow_self, Bool.xor_true]

theorem testBit_xor_single_other {m i j : Nat} (h : j ≠ i) :
    (m ^^^ 1 <<< i).testBit j = m.testBit j := by
  rw [Nat.testBit_xor, shiftLeft_one,
    Nat.testBit_two_pow_of_ne (fun he => h he.symm), Bool.xor_false]

theorem xor_single_msub {m i : Nat} (h : m.testBit i = true) :
    msub (m ^^^ 1 <<< i) m := by
  refine msub_iff.mpr (fun j hj => ?_)
  by_cases hji : j = i
  · subst hji; exact h
  · rw [testBit_xor_single_other hji] at hj; exact hj

/-- The removal loop of `candidate_key_from_super_key` seen as a left fold
of `minimizeStep` over the enumerated member list of the super-key. -/
theorem ckLoop_eq_fold (q : List q_key) (n : Nat) : ∀ (k : Nat) (skey ckey : Set),
    skey.count + (mFrom skey.set skey.cursor).length = skey.size →
    skey.size < 256 →
    (mFrom skey.set skey.cursor).length = k →
    ckLoop q n k skey ckey =
      List.foldl (minimizeStep q n) ckey (mFrom skey.set skey.cursor) := by
  intro k
  induction k with
  | zero =>
    intro skey ckey _ _ hlen
    rw [List.length_eq_zero.mp hlen, ckLoop, List.foldl_nil]
  | succ k ih =>
    intro skey ckey hcount hsize hlen
    have hscan : scanPos skey.set skey.cursor < MAX_ATTRIBS := by
      by_contra hc
      rw [mFrom_eq_scan, if_neg hc] at hlen
      exact absurd hlen.symm (Nat.succ_ne_zero k)
    have hdecomp : mFrom skey.set skey.cursor =
        scanPos skey.set skey.cursor :: mFrom skey.set (scanPos skey.set skey.cursor + 1) := by
      rw [mFrom_eq_scan, if_pos hscan]
    have hrestlen : (mFrom skey.set (scanPos skey.set skey.cursor + 1)).length = k := by
      rw [hdecomp] at hlen
      simpa using hlen
    have hcount1 : skey.count + 1 + k = skey.size := by
      rw [hdecomp] at hcount
      simp only [List.length_cons] at hcount
      omega
    have hmod : (skey.count + 1) % 2 ^ 8 = skey.count + 1 :=
      Nat.mod_eq_of_lt (by omega)
    rw [ckLoop]
    cases k with
    | zero =>
      have hfull : skey.count + 1 = skey.size := by omega
      have hnp : Set_next_pos skey =
          ({ skey with cursor := 0, count := 0 }, scanPos skey.set skey.cursor) := by
        rw [Set_next_pos]
        simp only [hscan, if_true]
        rw [hmod, if_pos hfull]
      simp only [hnp, ckLoop, minimizeStep]
      rw [hdecomp, List.length_eq_zero.mp hrestlen]
      simp only [List.foldl_cons, List.foldl_nil, minimizeStep]
    | succ k' =>
      have hne : skey.count + 1 ≠ skey.size := by omega
      have hnp : Set_next_pos skey =
          ({ skey with cursor := scanPos skey.set skey.cursor + 1, count := skey.count + 1 },
            scanPos skey.set skey.cursor) := by
        rw [Set_next_pos]
        simp only [hscan, if_true]
        rw [hmod, if_neg hne]
      have harg : ({ skey with cursor := scanPos skey.set skey.cursor + 1, count := skey.count + 1 } : Set).count + (mFrom skey.set (scanPos skey.set skey.cursor + 1)).length = skey.size := by
        simp only
        omega
      have hrec := fun ck => ih { skey with cursor := scanPos skey.set skey.cursor + 1, count := skey.count + 1 } ck harg hsize hrestlen
      simp only [hnp]
      rw [hdecomp, List.foldl_cons]
      by_cases hk : is_superkey (Set_remove (Set_copy ckey) (scanPos skey.set skey.cursor)) q n = true
      · rw [if_pos hk]
        rw [hrec (Set_copy (Set_remove (Set_copy ckey) (scanPos skey.set skey.cursor)))]
        have hstep : minimizeStep q n ckey (scanPos skey.set skey.cursor) =
            Set_copy (Set_remove (Set_copy ckey) (scanPos skey.set skey.cursor)) := by
          rw [minimizeStep]
          simp only [hk, if_true]
        rw [hstep]
      · rw [if_neg hk]
        rw [hrec ckey]
        have hstep : minimizeStep q n ckey (scanPos skey.set skey.cursor) = ckey := by
          rw [minimizeStep]
          simp only [hk, Bool.false_eq_true, if_false]
        rw [hstep]

/-- Specification of the removal fold: starting from a well-formed
superkey working copy in which every listed attribute is still present and
every unlisted member is already essential, the fold returns a well-formed
subset that is still a superkey and from which no single member can be
removed. -/
theorem minimize_fold_spec {q : List q_key} {n : Nat} (hq : depsWF q n)
    (hn : n ≤ MAX_ATTRIBS) : ∀ (l : List Nat) (ck : Set),
    wfReset ck → msub ck.set (uMask n) →
    (∀ a ∈ l, ck.set.testBit a = true) →
    l.Nodup →
    superkeyM q n ck.set →
    (∀ b, ck.set.testBit b = true → b ∉ l →
      ¬ superkeyM q n (ck.set ^^^ 1 <<< b)) →
    wfReset (List.foldl (minimizeStep q n) ck l) ∧
    msub (List.foldl (minimizeStep q n) ck l).set ck.set ∧
    superkeyM q n (List.foldl (minimizeStep q n) ck l).set ∧
    (∀ b, (List.foldl (minimizeStep q n) ck l).set.testBit b = true →
      ¬ superkeyM q n ((List.foldl (minimizeStep q n) ck l).set ^^^ 1 <<< b)) := by
  intro l
  induction l with
  | nil =>
    intro ck hwf hsub _ _ hsk hess
    rw [List.foldl_nil]
    exact ⟨hwf, msub_refl ck.set, hsk,
      fun b hb => hess b hb (List.not_mem_nil b)⟩
  | cons a rest ih =>
    intro ck hwf hsub hpres hnd hsk hess
    have ha : ck.set.testBit a = true := hpres a (List.mem_cons_self a rest)
    have haN : a < n := msub_uMask_iff.mp hsub a ha
    have ha32 : a < 32 := by rw [MAX_ATTRIBS] at hn; omega
    have hanotrest : a ∉ rest := (List.nodup_cons.mp hnd).1
    have hndrest : rest.Nodup := (List.nodup_cons.mp hnd).2
    have htempset : (Set_remove (Set_copy ck) a).set = ck.set ^^^ 1 <<< a := rfl
    have htempwf : wfReset (Set_remove (Set_copy ck) a) := by
      refine ⟨?_, rfl, rfl⟩
      show (ck.size + 255) % 2 ^ 8 = popcount32 (ck.set ^^^ 1 <<< a)
      rw [popcount32_xor_single ha32 ha]
      have h1 := popcount32_pos ha32 ha
      have h2 := popcount32_le ck.set
      rw [hwf.1]
      omega
    have htempsub : msub (Set_remove (Set_copy ck) a).set (uMask n) := by
      rw [htempset]
      exact msub_trans (xor_single_msub ha) hsub
    have htempne : (Set_remove (Set_copy ck) a).set ≠ uMask n := by
      rw [htempset]
      intro he
      have h1 : (ck.set ^^^ 1 <<< a).testBit a = false := by
        rw [testBit_xor_single_self, ha]
        rfl
      rw [he, testBit_uMask, decide_eq_true haN] at h1
      exact absurd h1 (by decide)
    rw [List.foldl_cons]
    by_cases his : is_superkey (Set_remove (Set_copy ck) a) q n = true
    · -- the attribute is inessential: the removal is kept
      have hstep : minimizeStep q n ck a = Set_copy (Set_remove (Set_copy ck) a) := by
        rw [minimizeStep]
        simp only [his, if_true]
      have hskt : superkeyM q n (ck.set ^^^ 1 <<< a) := by
        have := (is_superkey_true_iff hq hn (Set_remove (Set_copy ck) a)
          htempwf htempsub).mp his
        rw [htempset] at this
        exact this.1
      have hcopyset : (Set_copy (Set_remove (Set_copy ck) a)).set = ck.set ^^^ 1 <<< a := rfl
      have hcopywf : wfReset (Set_copy (Set_remove (Set_copy ck) a)) :=
        ⟨htempwf.1, rfl, rfl⟩
      have hrec := ih (Set_copy (Set_remove (Set_copy ck) a)) hcopywf
        (by rw [hcopyset]; exact msub_trans (xor_single_msub ha) hsub)
        (by
          intro b hb
          rw [hcopyset, testBit_xor_single_other
            (fun he => hanotrest (by rw [← he]; exact hb))]
          exact hpres b (List.mem_cons_of_mem a hb))
        hndrest
        (by rw [hcopyset]; exact hskt)
        (by
          intro b hb hbrest
          rw [hcopyset] at hb ⊢
          have hba : b ≠ a := by
            intro he
            rw [he, testBit_xor_single_self, ha] at hb
            simp at hb
          have hckb : ck.set.testBit b = true := by
            rw [testBit_xor_single_other hba] at hb
            exact hb
          have hold : ¬ superkeyM q n (ck.set ^^^ 1 <<< b) :=
            hess b hckb (by
              intro hmem
              rcases List.mem_cons.mp hmem with he | hm
              · exact hba he
              · exact hbrest hm)
          intro hnew
          apply hold
          refine superkeyM_mono hq hn ?_
            (msub_trans (xor_single_msub hckb) hsub) hnew
          refine msub_iff.mpr (fun j hj => ?_)
          have hjb : j ≠ b := by
            intro he
            rw [he, testBit_xor_single_self, hb] at hj
            simp at hj
          rw [testBit_xor_single_other hjb] at hj
          rw [testBit_xor_single_other hjb]
          by_cases hja : j = a
          · rw [hja, testBit_xor_single_self, ha] at hj
            simp at hj
          · rw [testBit_xor_single_other hja] at hj
            exact hj)
      rw [hstep]
      refine ⟨hrec.1, ?_, hrec.2.2.1, hrec.2.2.2⟩
      refine msub_trans hrec.2.1 ?_
      rw [hcopyset]
      exact xor_single_msub ha
    · -- the attribute is essential: the working copy is kept
      have hstep : minimizeStep q n ck a = ck := by
        rw [minimizeStep]
        simp only [his, Bool.false_eq_true, if_false]
      have hnot : ¬ superkeyM q n (ck.set ^^^ 1 <<< a) := by
        intro hskt
        exact his ((is_superkey_true_iff hq hn (Set_remove (Set_copy ck) a)
          htempwf htempsub).mpr ⟨by rw [htempset]; exact hskt, htempne⟩)
      have hrec := ih ck hwf hsub
        (fun b hb => hpres b (List.mem_cons_of_mem a hb))
        hndrest hsk
        (by
          intro b hb hbrest
          by_cases hba : b = a
          · rw [hba]
            exact hnot
          · exact hess b hb (by
              intro hmem
              rcases List.mem_cons.mp hmem with he | hm
              · exact hba he
              · exact hbrest hm))
      rw [hstep]
      exact hrec

/-- Full specification of the minimal-key reduction on a well-formed
in-range superkey: the result is well-formed, contained in the input,
still a superkey, and minimal. -/
theorem candidate_key_spec {q : List q_key} {n : Nat} (hq : depsWF q n)
    (hn : n ≤ MAX_ATTRIBS) (skey : Set) (hs : wfReset skey)
    (hsub : msub skey.set (uMask n)) (hsk : superkeyM q n skey.set) :
    wfReset (candidate_key_from_super_key skey q n) ∧
    msub (candidate_key_from_super_key skey q n).set skey.set ∧
    superkeyM q n (candidate_key_from_super_key skey q n).set ∧
    (∀ a, (candidate_key_from_super_key skey q n).set.testBit a = true →
      ¬ superkeyM q n ((candidate_key_from_super_key skey q n).set ^^^ 1 <<< a)) := by
  rw [candidate_key_from_super_key]
  have hlt : skey.set < 2 ^ 26 :=
    lt_of_lt_of_le (lt_of_msub_uMask hsub)
      (Nat.pow_le_pow_right (by omega) (by rw [MAX_ATTRIBS] at hn; omega))
  have hlen : (mFrom skey.set 0).length = skey.size := by
    rw [length_mFrom_zero hlt, hs.1]
  have hsize : skey.size < 256 := by
    have := popcount32_le skey.set
    rw [hs.1]
    omega
  have h1 : skey.count + (mFrom skey.set skey.cursor).length = skey.size := by
    rw [hs.2.1, hs.2.2, hlen]
    omega
  have h2 : (mFrom skey.set skey.cursor).length = skey.size := by
    rw [hs.2.1, hlen]
  have hfold := ckLoop_eq_fold q n skey.size skey (Set_copy skey) h1 hsize h2
  rw [hfold, hs.2.1]
  have hspec := minimize_fold_spec hq hn (mFrom skey.set 0) (Set_copy skey)
    ⟨hs.1, rfl, rfl⟩
    hsub
    (fun a haa => (mem_mFrom.mp haa).2.2)
    (mFrom_nodup skey.set 0)
    hsk
    (by
      intro b hb hmem
      exfalso
      apply hmem
      refine mem_mFrom.mpr ⟨Nat.zero_le b, ?_, hb⟩
      have := msub_uMask_iff.mp hsub b hb
      rw [MAX_ATTRIBS]
      rw [MAX_ATTRIBS] at hn
      omega)
  exact hspec

/-- Claim C3 (confirmed): for every well-formed in-range superkey `S` and
every in-range dependency set, `candidate_key_from_super_key` returns a
set `K ⊆ S` that is still a superkey (its closure is the full universe)
and is minimal: for every attribute `a` in `K`, `K` with the bit of `a`
cleared is no longer a superkey — i.e. the result is always a valid
candidate key. -/
theorem claim_C3_minimal_key (skey : Set) (q : List q_key) (n : Nat)
    (hs : wfReset skey) (hsub : msub skey.set (uMask n)) (hq : depsWF q n)
    (hn : n ≤ MAX_ATTRIBS) (hsk : superkeyM q n skey.set) :
    msub (candidate_key_from_super_key skey q n).set skey.set ∧
    superkeyM q n (candidate_key_from_super_key skey q n).set ∧
    (∀ a, (candidate_key_from_super_key skey q n).set.testBit a = true →
      ¬ superkeyM q n ((candidate_key_from_super_key skey q n).set ^^^ 1 <<< a)) := by
  have h := candidate_key_spec hq hn skey hs hsub hsk
  exact ⟨h.2.1, h.2.2.1, h.2.2.2⟩

/-- Witness for C3: reducing the superkey `{A, B}` (mask 3) under `A → B`
over two attributes yields a subset that is a superkey and from which `A`
cannot be dropped. -/
theorem claim_C3_witness :
    msub (candidate_key_from_super_key (mkSet 3) [⟨mkSet 1, mkSet 2⟩] 2).set 3 ∧
    superkeyM [⟨mkSet 1, mkSet 2⟩] 2
      (candidate_key_from_super_key (mkSet 3) [⟨mkSet 1, mkSet 2⟩] 2).set ∧
    ¬ superkeyM [⟨mkSet 1, mkSet 2⟩] 2
      ((candidate_key_from_super_key (mkSet 3) [⟨mkSet 1, mkSet 2⟩] 2).set ^^^ 1 <<< 0) := by
  have h := claim_C3_minimal_key (mkSet 3) [⟨mkSet 1, mkSet 2⟩] 2
    (by decide) (by decide) (by decide) (by decide) (by decide)
  exact ⟨h.1, h.2.1, h.2.2 0 (by decide)⟩

/-! ## The Lucchesi–Osborn enumeration loop -/

theorem wfReset_Set_full {n : Nat} (hn : n ≤ MAX_ATTRIBS) :
    wfReset (Set_full n) := by
  refine ⟨?_, rfl, rfl⟩
  show n = popcount32 (uMask n)
  rw [popcount32_uMask (by rw [MAX_ATTRIBS] at hn; omega)]

theorem Set_union_set (s t : Set) :
    (Set_union s t).set = s.set ||| t.set := rfl

theorem Set_difference_set (s t : Set) :
    (Set_difference s t).set =
      s.set &&& (uMask 32 ^^^ (t.set &&& uMask 32)) := rfl

/-- Bitwise reading of the difference mask inside the 32-bit word. -/
theorem testBit_diff {a b i : Nat} (hi : i < 32) :
    (a &&& (uMask 32 ^^^ (b &&& uMask 32))).testBit i =
      (a.testBit i && !b.testBit i) := by
  rw [Nat.testBit_land, Nat.testBit_xor, Nat.testBit_land,
    testBit_uMask, decide_eq_true hi]
  cases a.testBit i <;> cases b.testBit i <;> rfl

/-- The Lucchesi–Osborn step: if `K` is a superkey and `(lhs, rhs)` a
dependency, then `lhs ∪ (K \ rhs)` is again a superkey. -/
theorem superkeyM_LO_step {q : List q_key} {n : Nat} (hq : depsWF q n)
    (hn : n ≤ MAX_ATTRIBS) {d : q_key} (hd : d ∈ q) {K : Set}
    (hKsub : msub K.set (uMask n)) (hKsk : superkeyM q n K.set) :
    superkeyM q n (Set_union d.lhs (Set_difference K d.rhs)).set := by
  have hSsub : msub (Set_union d.lhs (Set_difference K d.rhs)).set (uMask n) := by
    rw [Set_union_set, Set_difference_set]
    exact lor_msub (hq d hd).2.2.1 (msub_trans (msub_land_left _ _) hKsub)
  have hKc : msub K.set
      (closM q n (Set_union d.lhs (Set_difference K d.rhs)).set) := by
    refine msub_iff.mpr (fun b hb => ?_)
    have hbn : b < n := msub_uMask_iff.mp hKsub b hb
    have hb26 : b < 26 := by rw [MAX_ATTRIBS] at hn; omega
    by_cases hbr : d.rhs.set.testBit b = true
    · have hlc : msub d.lhs.set
          (closM q n (Set_union d.lhs (Set_difference K d.rhs)).set) :=
        msub_trans (by rw [Set_union_set]; exact msub_lor_left _ _)
          (closM_contains hq hn hSsub)
      exact msub_iff.mp (closM_closed hq hn hSsub d hd hlc) b hbr
    · have hbrf : d.rhs.set.testBit b = false := Bool.eq_false_iff.mpr hbr
      have hdiffb : (Set_difference K d.rhs).set.testBit b = true := by
        rw [Set_difference_set, testBit_diff (by omega : b < 32), hb, hbrf]
        rfl
      have hSb : (Set_union d.lhs (Set_difference K d.rhs)).set.testBit b = true := by
        rw [Set_union_set, Nat.testBit_lor, hdiffb, Bool.or_true]
      exact msub_iff.mp (closM_contains hq hn hSsub) b hSb
  have hleast := closM_least hq hn hKsub hKc (closM_closed hq hn hSsub)
  show closM q n (Set_union d.lhs (Set_difference K d.rhs)).set = uMask n
  refine msub_antisymm (closM_inrange hq hn hSsub) ?_
  have hKU : closM q n K.set = uMask n := hKsk
  rw [← hKU]
  exact hleast

/-- A duplicate-free collection of masks inside the `n`-attribute universe
has at most `2 ^ n` members. -/
theorem length_le_pow {cks : List Set} {n : Nat}
    (hnd : (cks.map Set.set).Nodup) (hin : ∀ K ∈ cks, msub K.set (uMask n)) :
    cks.length ≤ 2 ^ n := by
  have hlen : cks.length = (cks.map Set.set).length := (List.length_map _ _).symm
  rw [hlen, ← List.toFinset_card_of_nodup hnd]
  refine le_trans (Finset.card_le_card ?_) (le_of_eq (Finset.card_range (2 ^ n)))
  intro m hm
  rw [List.mem_toFinset] at hm
  obtain ⟨K, hK, rfl⟩ := List.mem_map.mp hm
  rw [Finset.mem_range]
  exact lt_of_msub_uMask (hin K hK)

/-- Two distinct candidate keys are incomparable: a candidate key strictly
below another would contradict the latter's single-removal minimality. -/
theorem ckBundle_antichain {q : List q_key} {n : Nat} (hq : depsWF q n)
    (hn : n ≤ MAX_ATTRIBS) {K1 K2 : Set} (h1 : ckBundle q n K1)
    (h2 : ckBundle q n K2) (hne : K1.set ≠ K2.set) :
    ¬ msub K1.set K2.set := by
  intro hsub
  have hdiff : ∃ a, K2.set.testBit a = true ∧ K1.set.testBit a = false := by
    by_contra hc
    push_neg at hc
    apply hne
    refine msub_antisymm hsub (msub_iff.mpr (fun i hi => ?_))
    cases hb : K1.set.testBit i with
    | true => rfl
    | false => exact absurd hb (hc i hi)
  obtain ⟨a, ha2, ha1⟩ := hdiff
  have hsub' : msub K1.set (K2.set ^^^ 1 <<< a) := by
    refine msub_iff.mpr (fun j hj => ?_)
    have hja : j ≠ a := fun he => by
      rw [he, ha1] at hj
      exact Bool.false_ne_true hj
    rw [testBit_xor_single_other hja]
    exact msub_iff.mp hsub j hj
  have hsubU : msub (K2.set ^^^ 1 <<< a) (uMask n) :=
    msub_trans (xor_single_msub ha2) h2.2.1
  exact h2.2.2.2 a ha2 (superkeyM_mono hq hn hsub' hsubU h1.2.2.1)

/-- Effect of the inner FD loop on the `(ckeys, work)` state: it appends
the same duplicate-free block of freshly found candidate keys to both
queues, and afterwards every processed dependency has a found key inside
its derived superkey `S = lhs ∪ (K \ rhs)`. -/
theorem processDep_fold_spec {q : List q_key} {n : Nat} (hq : depsWF q n)
    (hn : n ≤ MAX_ATTRIBS) {K : Set} (hKsub : msub K.set (uMask n))
    (hKsk : superkeyM q n K.set) :
    ∀ (ds : List q_key), (∀ d ∈ ds, d ∈ q) →
    ∀ (cks wk : List Set),
      (∀ J ∈ cks, ckBundle q n J) →
      (cks.map Set.set).Nodup →
      ∃ L : List Set,
        List.foldl (processDep q n K) (cks, wk) ds = (cks ++ L, wk ++ L) ∧
        (∀ J ∈ L, ckBundle q n J) ∧
        ((cks ++ L).map Set.set).Nodup ∧
        (∀ d ∈ ds, ∃ J ∈ cks ++ L,
          msub J.set (Set_union d.lhs (Set_difference K d.rhs)).set) := by
  intro ds
  induction ds with
  | nil =>
    intro _ cks wk hbun hnd
    refine ⟨[], by simp, fun J hJ => absurd hJ (List.not_mem_nil J), by simpa, ?_⟩
    intro d hd
    exact absurd hd (List.not_mem_nil d)
  | cons d ds ih =>
    intro hds cks wk hbun hnd
    have hdq : d ∈ q := hds d (List.mem_cons_self d ds)
    have hdsq : ∀ e ∈ ds, e ∈ q := fun e he => hds e (List.mem_cons_of_mem d he)
    rw [List.foldl_cons]
    by_cases hany : cks.any
        (fun J => Set_contains (Set_union d.lhs (Set_difference K d.rhs)) J) = true
    · have hstep : processDep q n K (cks, wk) d = (cks, wk) := by
        rw [processDep]
        simp only [hany, if_true]
      rw [hstep]
      obtain ⟨L, heq, hLbun, hLnd, hLobl⟩ := ih hdsq cks wk hbun hnd
      refine ⟨L, heq, hLbun, hLnd, ?_⟩
      intro e he
      rcases List.mem_cons.mp he with rfl | he2
      · obtain ⟨J, hJ, hJc⟩ := List.any_eq_true.mp hany
        exact ⟨J, List.mem_append_left L hJ, Set_contains_iff.mp hJc⟩
      · exact hLobl e he2
    · have hSwf : wfReset (Set_union d.lhs (Set_difference K d.rhs)) :=
        wfReset_union _ _
      have hSsub : msub (Set_union d.lhs (Set_difference K d.rhs)).set (uMask n) := by
        rw [Set_union_set, Set_difference_set]
        exact lor_msub (hq d hdq).2.2.1 (msub_trans (msub_land_left _ _) hKsub)
      have hSsk : superkeyM q n (Set_union d.lhs (Set_difference K d.rhs)).set :=
        superkeyM_LO_step hq hn hdq hKsub hKsk
      have hK' := candidate_key_spec hq hn _ hSwf hSsub hSsk
      have hK'bun : ckBundle q n
          (candidate_key_from_super_key (Set_union d.lhs (Set_difference K d.rhs)) q n) :=
        ⟨hK'.1, msub_trans hK'.2.1 hSsub, hK'.2.2.1, hK'.2.2.2⟩
      have hnoc : ∀ J ∈ cks,
          ¬ Set_contains (Set_union d.lhs (Set_difference K d.rhs)) J = true := by
        intro J hJ hc
        exact hany (List.any_eq_true.mpr ⟨J, hJ, hc⟩)
      have hfresh : (candidate_key_from_super_key
          (Set_union d.lhs (Set_difference K d.rhs)) q n).set ∉ cks.map Set.set := by
        intro hmem
        obtain ⟨J, hJ, hJe⟩ := List.mem_map.mp hmem
        apply hnoc J hJ
        rw [Set_contains_iff, hJe]
        exact hK'.2.1
      have hstep : processDep q n K (cks, wk) d =
          (cks ++ [candidate_key_from_super_key (Set_union d.lhs (Set_difference K d.rhs)) q n],
           wk ++ [candidate_key_from_super_key (Set_union d.lhs (Set_difference K d.rhs)) q n]) := by
        rw [processDep]
        simp only [hany, Bool.false_eq_true, if_false]
      rw [hstep]
      have hbun' : ∀ J ∈ cks ++ [candidate_key_from_super_key
          (Set_union d.lhs (Set_difference K d.rhs)) q n], ckBundle q n J := by
        intro J hJ
        rcases List.mem_append.mp hJ with h | h
        · exact hbun J h
        · rw [List.mem_singleton.mp h]
          exact hK'bun
      have hnd' : ((cks ++ [candidate_key_from_super_key
          (Set_union d.lhs (Set_difference K d.rhs)) q n]).map Set.set).Nodup := by
        rw [List.map_append]
        refine List.Nodup.append hnd (List.nodup_singleton _) ?_
        intro m hm hm2
        have hme : m = (candidate_key_from_super_key
            (Set_union d.lhs (Set_difference K d.rhs)) q n).set := by
          simpa using hm2
        rw [hme] at hm
        exact hfresh hm
      obtain ⟨L, heq, hLbun, hLnd, hLobl⟩ := ih hdsq _ _ hbun' hnd'
      refine ⟨candidate_key_from_super_key (Set_union d.lhs (Set_difference K d.rhs)) q n :: L,
        ?_, ?_, ?_, ?_⟩
      · rw [heq, List.append_assoc, List.append_assoc, List.singleton_append]
      · intro J hJ
        rcases List.mem_cons.mp hJ with rfl | h
        · exact hK'bun
        · exact hLbun J h
      · rw [← List.singleton_append, ← List.append_assoc]
        exact hLnd
      · intro e he
        rcases List.mem_cons.mp he with rfl | he2
        · refine ⟨candidate_key_from_super_key (Set_union e.lhs (Set_difference K e.rhs)) q n,
            ?_, hK'.2.1⟩
          rw [← List.singleton_append, ← List.append_assoc]
          exact List.mem_append_left L (List.mem_append_right cks (List.mem_singleton_self _))
        · obtain ⟨J, hJ, hJs⟩ := hLobl e he2
          refine ⟨J, ?_, hJs⟩
          rw [← List.singleton_append, ← List.append_assoc]
          exact hJ

/-- An empty work queue makes the loop body a no-op. -/
theorem stepLO_empty (q : List q_key) (n : Nat) (st : List Set × List Set)
    (h : st.2 = []) : stepLO q n st = st := by
  obtain ⟨cks, wk⟩ := st
  simp only at h
  subst h
  rfl

/-- One non-trivial loop iteration: pop the oldest work key, run the FD
loop; the state grows by one identical block on both queues and the
invariant is preserved. -/
theorem stepLO_cons {q : List q_key} {n : Nat} (hq : depsWF q n)
    (hn : n ≤ MAX_ATTRIBS) {cks : List Set} {K : Set} {w : List Set}
    (hinv : LOInv q n (cks, K :: w)) :
    ∃ L, stepLO q n (cks, K :: w) = (cks ++ L, w ++ L) ∧
      LOInv q n (cks ++ L, w ++ L) := by
  obtain ⟨hbun, hnd, hwnd, hwsub, hproc⟩ := hinv
  have hKcks : K ∈ cks := hwsub K (List.mem_cons_self K w)
  have hKb : ckBundle q n K := hbun K hKcks
  obtain ⟨L, heq, hLbun, hLnd, hLobl⟩ :=
    processDep_fold_spec hq hn hKb.2.1 hKb.2.2.1 q (fun d hd => hd) cks w hbun hnd
  have hstep : stepLO q n (cks, K :: w) = (cks ++ L, w ++ L) := by
    rw [stepLO]
    exact heq
  refine ⟨L, hstep, ?_, hLnd, ?_, ?_, ?_⟩
  · intro J hJ
    rcases List.mem_append.mp hJ with h | h
    · exact hbun J h
    · exact hLbun J h
  · -- work queue stays duplicate-free
    show ((w ++ L).map Set.set).Nodup
    rw [List.map_append]
    have hmapcons : ((K :: w).map Set.set) = K.set :: w.map Set.set := rfl
    rw [hmapcons] at hwnd
    refine List.Nodup.append (List.nodup_cons.mp hwnd).2 ?_ ?_
    · have := hLnd
      rw [List.map_append] at this
      exact this.of_append_right
    · intro m hm hm2
      have hmc : m ∈ cks.map Set.set := by
        obtain ⟨J, hJ, rfl⟩ := List.mem_map.mp hm
        exact List.mem_map.mpr ⟨J, hwsub J (List.mem_cons_of_mem K hJ), rfl⟩
      have hdisj := List.disjoint_of_nodup_append (by rw [List.map_append] at hLnd; exact hLnd)
      exact hdisj hmc hm2
  · intro J hJ
    rcases List.mem_append.mp hJ with h | h
    · exact List.mem_append_left L (hwsub J (List.mem_cons_of_mem K h))
    · exact List.mem_append_right cks h
  · intro K2 hK2 hK2w d hd
    rcases List.mem_append.mp hK2 with h | h
    · by_cases hKK : K2 = K
      · subst hKK
        exact hLobl d hd
      · have hK2old : K2 ∉ K :: w := by
          intro hmem
          rcases List.mem_cons.mp hmem with he | hm
          · exact hKK he
          · exact hK2w (List.mem_append_left L hm)
        obtain ⟨J, hJ, hJs⟩ := hproc K2 h hK2old d hd
        exact ⟨J, List.mem_append_left L hJ, hJs⟩
    · exact absurd (List.mem_append_right w h) hK2w

/-- Iterating the loop preserves the invariant and only appends to the
found-key queue. -/
theorem stepLO_iterate_spec {q : List q_key} {n : Nat} (hq : depsWF q n)
    (hn : n ≤ MAX_ATTRIBS) : ∀ (k : Nat) (st : List Set × List Set),
    LOInv q n st →
    LOInv q n ((stepLO q n)^[k] st) ∧
    ∃ L, ((stepLO q n)^[k] st).1 = st.1 ++ L := by
  intro k
  induction k with
  | zero =>
    intro st hinv
    exact ⟨hinv, [], by simp⟩
  | succ k ih =>
    intro st hinv
    rw [Function.iterate_succ_apply]
    rcases hw : st.2 with _ | ⟨K, w⟩
    · rw [stepLO_empty q n st hw]
      exact ih st hinv
    · obtain ⟨cks, wk⟩ := st
      simp only at hw
      subst hw
      obtain ⟨L0, hstep, hinv'⟩ := stepLO_cons hq hn hinv
      rw [hstep]
      obtain ⟨hfin, L1, hL1⟩ := ih (cks ++ L0, w ++ L0) hinv'
      refine ⟨hfin, L0 ++ L1, ?_⟩
      rw [hL1]
      simp only [List.append_assoc]

/-- The work queue drains: the combined measure `|work| + 2^n - |ckeys|`
shrinks by one with every non-trivial iteration, and `|ckeys|` can never
exceed `2^n`. -/
theorem stepLO_drain {q : List q_key} {n : Nat} (hq : depsWF q n)
    (hn : n ≤ MAX_ATTRIBS) : ∀ (k : Nat) (st : List Set × List Set),
    LOInv q n st → st.2.length + 2 ^ n ≤ k + st.1.length →
    ((stepLO q n)^[k] st).2 = [] := by
  intro k
  induction k with
  | zero =>
    intro st hinv hm
    have hcard : st.1.length ≤ 2 ^ n :=
      length_le_pow hinv.2.1 (fun K hK => (hinv.1 K hK).2.1)
    have : st.2.length = 0 := by omega
    rw [Function.iterate_zero_apply]
    exact List.length_eq_zero.mp this
  | succ k ih =>
    intro st hinv hm
    rw [Function.iterate_succ_apply]
    rcases hw : st.2 with _ | ⟨K, w⟩
    · rw [stepLO_empty q n st hw, Function.iterate_fixed (stepLO_empty q n st hw)]
      exact hw
    · obtain ⟨cks, wk⟩ := st
      simp only at hw
      subst hw
      obtain ⟨L0, hstep, hinv'⟩ := stepLO_cons hq hn hinv
      rw [hstep]
      refine ih (cks ++ L0, w ++ L0) hinv' ?_
      simp only [List.length_append] at hm ⊢
      simp only [List.length_cons] at hm
      omega

/-- The Lucchesi–Osborn completeness argument: a non-empty family of
in-range keys that is stable under the `S = lhs ∪ (K \ rhs)` derivation —
every derived superkey contains a family member — meets every superkey,
by downward induction along a closure derivation of `T`. -/
theorem LO_complete_aux {q : List q_key} {n : Nat} (hq : depsWF q n)
    (hn : n ≤ MAX_ATTRIBS) {F : List Set}
    (hF : ∀ K ∈ F, msub K.set (uMask n))
    (hne : F ≠ [])
    (hstar : ∀ K ∈ F, ∀ d ∈ q, ∃ J ∈ F,
      msub J.set (Set_union d.lhs (Set_difference K d.rhs)).set) :
    ∀ (fuel : Nat) (T : Nat), n ≤ popcount32 T + fuel → msub T (uMask n) →
      superkeyM q n T → ∃ J ∈ F, msub J.set T := by
  have hn32 : n ≤ 32 := by rw [MAX_ATTRIBS] at hn; omega
  intro fuel
  induction fuel with
  | zero =>
    intro T hfc hTsub hTsk
    have h1 : popcount32 T ≤ n := popcount32_le_of_msub_uMask hTsub hn32
    have hTeq : T = uMask n := eq_uMask_of_popcount hTsub hn32 (by omega)
    obtain ⟨J, hJ⟩ := List.exists_mem_of_ne_nil F hne
    exact ⟨J, hJ, by rw [hTeq]; exact hF J hJ⟩
  | succ fuel ih =>
    intro T hfc hTsub hTsk
    by_cases hcl : ∀ d ∈ q, msub d.lhs.set T → msub d.rhs.set T
    · have hTeq : T = uMask n := closed_superkeyM_eq hq hn hTsub hcl hTsk
      obtain ⟨J, hJ⟩ := List.exists_mem_of_ne_nil F hne
      exact ⟨J, hJ, by rw [hTeq]; exact hF J hJ⟩
    · push_neg at hcl
      obtain ⟨d, hd, hlhs, hrhs⟩ := hcl
      have hT'sub : msub (T ||| d.rhs.set) (uMask n) :=
        lor_msub hTsub (hq d hd).2.2.2
      have hT'ne : T ≠ T ||| d.rhs.set := by
        intro he
        apply hrhs
        have h2 := msub_lor_right T d.rhs.set
        rw [← he] at h2
        exact h2
      have hT'big : msub T (T ||| d.rhs.set) := msub_lor_left _ _
      have hcnt : popcount32 T < popcount32 (T ||| d.rhs.set) :=
        popcount32_strict_mono hT'big hT'ne
          (lt_of_lt_of_le (lt_of_msub_uMask hT'sub)
            (Nat.pow_le_pow_right (by omega) hn32))
      have hT'sk : superkeyM q n (T ||| d.rhs.set) :=
        superkeyM_mono hq hn hT'big hT'sub hTsk
      obtain ⟨J, hJ, hJT'⟩ := ih (T ||| d.rhs.set) (by omega) hT'sub hT'sk
      obtain ⟨J', hJ', hJ'S⟩ := hstar J hJ d hd
      refine ⟨J', hJ', msub_trans hJ'S ?_⟩
      rw [Set_union_set, Set_difference_set]
      refine lor_msub hlhs (msub_iff.mpr (fun b hb => ?_))
      have hb32 : b < 32 := by
        by_contra hc
        rw [Nat.testBit_land, Nat.testBit_xor, Nat.testBit_land,
          testBit_uMask] at hb
        have hd32 : decide (b < 32) = false := decide_eq_false (by omega)
        rw [hd32, Bool.and_false, Bool.xor_false, Bool.and_false] at hb
        exact Bool.false_ne_true hb
      rw [testBit_diff hb32] at hb
      obtain ⟨hJb, hrb⟩ := Bool.and_eq_true _ _ |>.mp hb
      have hrbf : d.rhs.set.testBit b = false := by
        cases hx : d.rhs.set.testBit b with
        | false => rfl
        | true => rw [hx] at hrb; exact absurd hrb (by decide)
      have hTb := msub_iff.mp hJT' b hJb
      rw [Nat.testBit_lor, hrbf, Bool.or_false] at hTb
      exact hTb

/-- The initial state of the enumeration satisfies the loop invariant. -/
theorem initLO_inv {q : List q_key} {n : Nat} (hq : depsWF q n)
    (hn : n ≤ MAX_ATTRIBS) : LOInv q n (initLO q n) := by
  have hfwf := wfReset_Set_full hn
  have hfsub : msub (Set_full n).set (uMask n) := msub_refl _
  have hfsk : superkeyM q n (Set_full n).set := superkeyM_uMask hq hn
  have hK0 := candidate_key_spec hq hn (Set_full n) hfwf hfsub hfsk
  have hK0b : ckBundle q n (candidate_key_from_super_key (Set_full n) q n) :=
    ⟨hK0.1, msub_trans hK0.2.1 hfsub, hK0.2.2.1, hK0.2.2.2⟩
  refine ⟨?_, ?_, ?_, ?_, ?_⟩
  · intro K hK
    rw [List.mem_singleton.mp hK]
    exact hK0b
  · exact List.nodup_singleton _
  · exact List.nodup_singleton _
  · intro K hK
    exact hK
  · intro K hK hKw
    exact absurd hK hKw

/-! ## Claim C6: termination of the work loop -/

/-- Claim C6 (confirmed): for every valid input the work loop terminates —
iterating the loop body `2 ^ n_attributes` times drains the work queue
(each accepted key is a genuinely new member of the found collection, whose
size is bounded by `2 ^ n_attributes`), and from then on the loop body is
the identity: the enumeration is a total function. -/
theorem claim_C6_termination (q : List q_key) (n : Nat) (hq : depsWF q n)
    (_hnn : depsNonempty q) (_hn1 : 1 ≤ n) (hn : n ≤ MAX_ATTRIBS) :
    ((stepLO q n)^[2 ^ n] (initLO q n)).2 = [] ∧
    ∀ j : Nat, (stepLO q n)^[2 ^ n + j] (initLO q n) =
      (stepLO q n)^[2 ^ n] (initLO q n) := by
  have hdrain := stepLO_drain hq hn (2 ^ n) (initLO q n) (initLO_inv hq hn)
    (by simp only [initLO, List.length_singleton]; omega)
  refine ⟨hdrain, ?_⟩
  intro j
  rw [Nat.add_comm, Function.iterate_add_apply]
  exact Function.iterate_fixed (stepLO_empty q n _ hdrain) j

/-- Witness for C6: for `A → B` over two attributes the work queue is
drained after `2 ^ 2` iterations and a further iteration changes
nothing. -/
theorem claim_C6_witness :
    ((stepLO [⟨mkSet 1, mkSet 2⟩] 2)^[2 ^ 2] (initLO [⟨mkSet 1, mkSet 2⟩] 2)).2 = [] ∧
    (stepLO [⟨mkSet 1, mkSet 2⟩] 2)^[2 ^ 2 + 1] (initLO [⟨mkSet 1, mkSet 2⟩] 2) =
      (stepLO [⟨mkSet 1, mkSet 2⟩] 2)^[2 ^ 2] (initLO [⟨mkSet 1, mkSet 2⟩] 2) := by
  have h := claim_C6_termination [⟨mkSet 1, mkSet 2⟩] 2
    (by decide) (by decide) (by decide) (by decide)
  exact ⟨h.1, h.2 1⟩

/-! ## Claim C1: completeness of the key enumeration -/

/-- Claim C1 (confirmed): for every dependency set with non-empty in-range
sides over a universe of `1 ≤ n ≤ 26` attributes, and every attribute
subset `T` that is a superkey — its closure under the dependencies is the
full universe — the output of the candidate-key enumeration contains at
least one key `K ⊆ T`: no candidate key is missed. -/
theorem claim_C1_completeness (q : List q_key) (n : Nat) (hq : depsWF q n)
    (_hnn : depsNonempty q) (_hn1 : 1 ≤ n) (hn : n ≤ MAX_ATTRIBS) :
    ∀ T : Nat, msub T (uMask n) → superkeyM q n T →
      ∃ K ∈ print_all_candidate_keys q n, msub K.set T := by
  intro T hTsub hTsk
  obtain ⟨hinvF, L, hL⟩ :=
    stepLO_iterate_spec hq hn (2 ^ n) (initLO q n) (initLO_inv hq hn)
  have hdrain := stepLO_drain hq hn (2 ^ n) (initLO q n) (initLO_inv hq hn)
    (by simp only [initLO, List.length_singleton]; omega)
  have hF : ∀ K ∈ ((stepLO q n)^[2 ^ n] (initLO q n)).1, msub K.set (uMask n) :=
    fun K hK => (hinvF.1 K hK).2.1
  have hne : ((stepLO q n)^[2 ^ n] (initLO q n)).1 ≠ [] := by
    rw [hL]
    simp [initLO]
  have hstar : ∀ K ∈ ((stepLO q n)^[2 ^ n] (initLO q n)).1, ∀ d ∈ q,
      ∃ J ∈ ((stepLO q n)^[2 ^ n] (initLO q n)).1,
        msub J.set (Set_union d.lhs (Set_difference K d.rhs)).set := by
    intro K hK d hd
    refine hinvF.2.2.2.2 K hK ?_ d hd
    rw [hdrain]
    exact List.not_mem_nil K
  have := LO_complete_aux hq hn hF hne hstar n T (by omega) hTsub hTsk
  rw [print_all_candidate_keys]
  exact this

/-- Witness for C1: for `A → B` over two attributes, the superkey `{A, B}`
(mask 3) contains an output key. -/
theorem claim_C1_witness :
    ∃ K ∈ print_all_candidate_keys [⟨mkSet 1, mkSet 2⟩] 2, msub K.set 3 :=
  claim_C1_completeness [⟨mkSet 1, mkSet 2⟩] 2
    (by decide) (by decide) (by decide) (by decide) 3 (by decide) (by decide)

/-! ## Claim C2: duplicate-freedom and the antichain invariant -/

/-- Claim C2 (confirmed): on every valid input the enumeration's output
contains no repeated bitmask, and of two distinct output keys neither is a
subset of the other; moreover the same holds for the accumulated found-key
queue after every iteration of the work loop, not only at the end. -/
theorem claim_C2_antichain (q : List q_key) (n : Nat) (hq : depsWF q n)
    (_hnn : depsNonempty q) (_hn1 : 1 ≤ n) (hn : n ≤ MAX_ATTRIBS) :
    (((print_all_candidate_keys q n).map Set.set).Nodup ∧
      ∀ K1 ∈ print_all_candidate_keys q n, ∀ K2 ∈ print_all_candidate_keys q n,
        K1.set ≠ K2.set → ¬ msub K1.set K2.set) ∧
    ∀ k : Nat,
      ((((stepLO q n)^[k] (initLO q n)).1.map Set.set).Nodup ∧
        ∀ K1 ∈ ((stepLO q n)^[k] (initLO q n)).1,
          ∀ K2 ∈ ((stepLO q n)^[k] (initLO q n)).1,
            K1.set ≠ K2.set → ¬ msub K1.set K2.set) := by
  have hper : ∀ k : Nat,
      ((((stepLO q n)^[k] (initLO q n)).1.map Set.set).Nodup ∧
        ∀ K1 ∈ ((stepLO q n)^[k] (initLO q n)).1,
          ∀ K2 ∈ ((stepLO q n)^[k] (initLO q n)).1,
            K1.set ≠ K2.set → ¬ msub K1.set K2.set) := by
    intro k
    obtain ⟨hinvF, -⟩ := stepLO_iterate_spec hq hn k (initLO q n) (initLO_inv hq hn)
    exact ⟨hinvF.2.1, fun K1 h1 K2 h2 hne =>
      ckBundle_antichain hq hn (hinvF.1 K1 h1) (hinvF.1 K2 h2) hne⟩
  exact ⟨hper (2 ^ n), hper⟩

/-- Witness for C2 on `A → B` over two attributes, including the state
after one iteration. -/
theorem claim_C2_witness :
    ((print_all_candidate_keys [⟨mkSet 1, mkSet 2⟩] 2).map Set.set).Nodup ∧
    ((((stepLO [⟨mkSet 1, mkSet 2⟩] 2)^[1] (initLO [⟨mkSet 1, mkSet 2⟩] 2)).1.map
      Set.set)).Nodup := by
  have h := claim_C2_antichain [⟨mkSet 1, mkSet 2⟩] 2
    (by decide) (by decide) (by decide) (by decide)
  exact ⟨h.1.1, (h.2 1).1⟩

end FuncDep
